import Mathlib

/-!
# Verification of the hash-fragment messaging protocol

Shallow embedding of `src/hash-messaging-bg.js` (background endpoint,
per-tab multiplexed) and `src/unnamed/part_000` (`HashMessagingContents`,
the handshake/session-secret endpoint) of
`piroor/webextensions-lib-hash-messaging`, together with proofs about the
codec (base64url transport encoding over UTF-8 bytes, chunking), the
reassembly buffer, the per-destination outgoing-session state machine,
the stop-and-wait chunk sender, the dispatch layer and the secret filter.

JavaScript strings are modelled as `List Char` (sequences of Unicode
scalar values), bytes as `Nat` below 256, and the host Maps as
association lists.
-/

set_option maxHeartbeats 1000000

namespace HashMessaging

/-! ## Association-list helpers (model of the JS `Map` objects) -/
def lookupA {α β : Type} [DecidableEq α] : List (α × β) → α → Option β
  | [], _ => none
  | (k, v) :: rest, a => if k = a then some v else lookupA rest a

def setA {α β : Type} [DecidableEq α] : List (α × β) → α → β → List (α × β)
  | [], a, b => [(a, b)]
  | (k, v) :: rest, a, b => if k = a then (a, b) :: rest else (k, v) :: setA rest a b

def eraseA {α β : Type} [DecidableEq α] : List (α × β) → α → List (α × β)
  | [], _ => []
  | (k, v) :: rest, a => if k = a then rest else (k, v) :: eraseA rest a

/-! ## Decimal digit strings (model of JS number-to-string in template literals) -/
def digitChar (d : Nat) : Char := Char.ofNat (48 + d)

/-- Decimal representation of a natural number, as produced by a JS
template literal `${n}` for a non-negative integer. -/
def natToChars (n : Nat) : List Char :=
  if n = 0 then ['0'] else (Nat.digits 10 n).reverse.map digitChar

/-- Decimal representation of a JS number that is an integer (used for
`${index-1}`, which can be `-1`). -/
def intToChars (i : Int) : List Char :=
  if i < 0 then '-' :: natToChars i.natAbs else natToChars i.natAbs

def parseDigitsAcc (a : Nat) (cs : List Char) : Nat :=
  cs.foldl (fun a c => 10 * a + (c.toNat - 48)) a

/-- Parsing the decimal representation back (the numeric value of a digit
string, as `parseInt(s, 10)` computes it on an all-digits string). -/
def parseDigits (cs : List Char) : Nat := parseDigitsAcc 0 cs

/-! ## UTF-8 byte encoding

`btoa(unescape(encodeURIComponent(str)))` base64-encodes the UTF-8 bytes
of `str`: `encodeURIComponent` percent-encodes the UTF-8 bytes and
`unescape` turns each `%XX` back into the byte as a latin-1 code unit.
We model that composition directly as the UTF-8 encoding of the
character sequence.  Likewise `decodeURIComponent(escape(s))` decodes
UTF-8 bytes back to characters, throwing (here: `none`) on invalid
sequences. -/
def utf8EncodeChar (c : Char) : List Nat :=
  let n := c.toNat
  if n < 0x80 then [n]
  else if n < 0x800 then [0xC0 + n / 64, 0x80 + n % 64]
  else if n < 0x10000 then [0xE0 + n / 4096, 0x80 + n / 64 % 64, 0x80 + n % 64]
  else [0xF0 + n / 262144, 0x80 + n / 4096 % 64, 0x80 + n / 64 % 64, 0x80 + n % 64]

def utf8Encode (s : List Char) : List Nat := (s.map utf8EncodeChar).flatten

/-- State of the streaming UTF-8 decoder: characters decoded so far (in
reverse), number of continuation bytes still expected, the partial scalar
value, and the smallest scalar value the current sequence is allowed to
produce (overlong rejection). -/
structure U8State where
  acc : List Char
  need : Nat
  val : Nat
  low : Nat
  deriving DecidableEq, Repr

def u8Step (st : Option U8State) (b : Nat) : Option U8State :=
  match st with
  | none => none
  | some st =>
    if st.need = 0 then
      if b < 0x80 then some ⟨Char.ofNat b :: st.acc, 0, 0, 0⟩
      else if b < 0xC0 then none
      else if b < 0xE0 then some ⟨st.acc, 1, b - 0xC0, 0x80⟩
      else if b < 0xF0 then some ⟨st.acc, 2, b - 0xE0, 0x800⟩
      else if b < 0xF8 then some ⟨st.acc, 3, b - 0xF0, 0x10000⟩
      else none
    else
      if 0x80 ≤ b ∧ b < 0xC0 then
        let v := st.val * 64 + (b - 0x80)
        if st.need = 1 then
          if v < st.low ∨ (0xD800 ≤ v ∧ v < 0xE000) ∨ 0x110000 ≤ v then none
          else some ⟨Char.ofNat v :: st.acc, 0, 0, 0⟩
        else some ⟨st.acc, st.need - 1, v, st.low⟩
      else none

def utf8Decode (l : List Nat) : Option (List Char) :=
  (l.foldl u8Step (some ⟨[], 0, 0, 0⟩)).bind fun st =>
    if st.need = 0 then some st.acc.reverse else none

/-! ## Base64 (models of `btoa` and `atob`)

`btoa` produces standard base64 with `=` padding; `atob` implements
forgiving-base64 decoding and throws (`none`) on characters outside the
alphabet or a post-padding length ≡ 1 (mod 4).  ASCII-whitespace
stripping is omitted: no caller ever passes whitespace. -/
def b64Char (v : Nat) : Char :=
  if v < 26 then Char.ofNat (65 + v)
  else if v < 52 then Char.ofNat (97 + (v - 26))
  else if v < 62 then Char.ofNat (48 + (v - 52))
  else if v = 62 then '+'
  else '/'

def b64Val (c : Char) : Option Nat :=
  if 65 ≤ c.toNat ∧ c.toNat ≤ 90 then some (c.toNat - 65)
  else if 97 ≤ c.toNat ∧ c.toNat ≤ 122 then some (c.toNat - 97 + 26)
  else if 48 ≤ c.toNat ∧ c.toNat ≤ 57 then some (c.toNat - 48 + 52)
  else if c = '+' then some 62
  else if c = '/' then some 63
  else none

/-- The sextet stream of the base64 encoding of a byte stream (before
alphabet mapping and padding). -/
def bytesToSextets : List Nat → List Nat
  | x :: y :: z :: rest =>
    x / 4 :: (x % 4 * 16 + y / 16) :: (y % 16 * 4 + z / 64) :: z % 64 :: bytesToSextets rest
  | [x] => [x / 4, x % 4 * 16]
  | [x, y] => [x / 4, x % 4 * 16 + y / 16, y % 16 * 4]
  | [] => []

def btoa : List Nat → List Char
  | x :: y :: z :: rest =>
    b64Char (x / 4) :: b64Char (x % 4 * 16 + y / 16) :: b64Char (y % 16 * 4 + z / 64) ::
      b64Char (z % 64) :: btoa rest
  | [x] => [b64Char (x / 4), b64Char (x % 4 * 16), '=', '=']
  | [x, y] => [b64Char (x / 4), b64Char (x % 4 * 16 + y / 16), b64Char (y % 16 * 4), '=']
  | [] => []

def sextetsToBytes : List Nat → List Nat
  | a :: b :: c :: d :: rest =>
    (a * 4 + b / 16) :: (b % 16 * 16 + c / 4) :: (c % 4 * 64 + d) :: sextetsToBytes rest
  | [a, b] => [a * 4 + b / 16]
  | [a, b, c] => [a * 4 + b / 16, b % 16 * 16 + c / 4]
  | _ => []

def traverseB64 : List Char → Option (List Nat)
  | [] => some []
  | c :: rest =>
    match b64Val c with
    | none => none
    | some v => (traverseB64 rest).map (v :: ·)

/-- `atob` removes one or two trailing `=` when the length is a multiple
of four. -/
def dropTrailingEq (s : List Char) : List Char :=
  if s.length % 4 = 0 then
    if s.reverse.take 2 = ['=', '='] then (s.reverse.drop 2).reverse
    else if s.reverse.take 1 = ['='] then (s.reverse.drop 1).reverse
    else s
  else s

def atob (s0 : List Char) : Option (List Nat) :=
  let s := dropTrailingEq s0
  if s.length % 4 = 1 then none
  else (traverseB64 s).map sextetsToBytes

def stdToUrl (c : Char) : Char := if c = '+' then '-' else if c = '/' then '_' else c

def urlToStd (c : Char) : Char := if c = '-' then '+' else if c = '_' then '/' else c

def stripTrailingEq (s : List Char) : List Char :=
  (s.reverse.dropWhile (· = '=')).reverse

/-- `encodeBase64` from the source:
`btoa(unescape(encodeURIComponent(str)))` (base64 of the UTF-8 bytes),
then `+`→`-`, `/`→`_`, and all trailing `=` stripped. -/
def encodeBase64 (str : List Char) : List Char :=
  stripTrailingEq ((btoa (utf8Encode str)).map stdToUrl)

/-- `decodeBase64` from the source: `-`→`+`, `_`→`/`, `=` appended while
the length is not a multiple of 4, then `atob` and
`decodeURIComponent(escape(...))`.  `none` models a thrown exception. -/
def decodeBase64 (str : List Char) : Option (List Char) :=
  let s1 := str.map urlToStd
  let s2 := s1 ++ List.replicate ((4 - s1.length % 4) % 4) '='
  (atob s2).bind utf8Decode

/-- The unpadded base64 text of a byte stream. -/
def b64Core (bytes : List Nat) : List Char := (bytesToSextets bytes).map b64Char

/-! ## Chunking (`chunkString` from the source) -/
def MAX_HASH_BYTES : Nat := 4000

def OVERHEAD : Nat := 120

/-- `chunkString(str, size)` from the source: successive slices of at most
`size` characters, in order.  The JS `for` loop advances `i` by `size`;
for `size = 0` it would never terminate, so the model returns `[]` in
that never-exercised case. -/
def chunkString (s : List Char) (size : Nat) : List (List Char) :=
  if h1 : s = [] then []
  else if h2 : size = 0 then []
  else s.take size :: chunkString (s.drop size) size
termination_by s.length
decreasing_by
  simp only [List.length_drop]
  have hne : s.length ≠ 0 := fun h => h1 (List.length_eq_zero.mp h)
  omega

/-! ## JSON values (model of the host `JSON.stringify` / `JSON.parse`)

Messages are JSON-serializable trees (spec section 3).  Numbers are
modelled as integers: the protocol treats payloads opaquely, and a model
of IEEE-754 double formatting is out of scope.  Object member order is
the JS insertion order.  `JSON.stringify` emits no whitespace and
escapes `"`, `\\`, and control characters below `0x20` (using the
short escapes for backspace, tab, newline, form feed, carriage return,
and lowercase `\u00XX` otherwise). -/
inductive Json where
  | null
  | bool (flag : Bool)
  | num (z : Int)
  | str (text : List Char)
  | arr (items : List Json)
  | obj (fields : List (List Char × Json))

def nibbleChar (d : Nat) : Char :=
  Char.ofNat (if d < 10 then 48 + d else 97 + (d - 10))

def escapeChar (c : Char) : List Char :=
  if c = '"' then ['\\', '"']
  else if c = '\\' then ['\\', '\\']
  else if c.toNat = 8 then ['\\', 'b']
  else if c.toNat = 9 then ['\\', 't']
  else if c.toNat = 10 then ['\\', 'n']
  else if c.toNat = 12 then ['\\', 'f']
  else if c.toNat = 13 then ['\\', 'r']
  else if c.toNat < 32 then
    '\\' :: 'u' :: '0' :: '0' :: nibbleChar (c.toNat / 16) :: [nibbleChar (c.toNat % 16)]
  else [c]

def quoteString (s : List Char) : List Char :=
  '"' :: (s.map escapeChar).flatten ++ ['"']

mutual

def stringify : Json → List Char
  | .num n => intToChars n
  | .str s => quoteString s
  | .null => ['n', 'u', 'l', 'l']
  | .bool true => 't' :: ['r', 'u', 'e']
  | .bool false => 'f' :: ['a', 'l', 's', 'e']
  | .arr xs => '[' :: stringifyItems xs ++ [']']
  | .obj kvs => '{' :: stringifyMembers kvs ++ ['}']

def stringifyItems : List Json → List Char
  | [] => []
  | [x] => stringify x
  | x :: y :: rest => stringify x ++ ',' :: stringifyItems (y :: rest)

def stringifyMembers : List (List Char × Json) → List Char
  | [] => []
  | [(k, v)] => quoteString k ++ ':' :: stringify v
  | (k, v) :: m :: rest => quoteString k ++ ':' :: stringify v ++ ',' :: stringifyMembers (m :: rest)

end

/-! ### Model of `JSON.parse`

A recursive-descent parser over the character list, with fuel bounding
the nesting depth.  Deliberate modelling boundaries (none of which any
theorem below exercises): number syntax is restricted to optionally
signed integer digit runs, and `\\uXXXX` escapes denoting lone
surrogates are rejected because a Lean `Char` can only hold a Unicode
scalar value. -/
def isJsonWs (c : Char) : Bool :=
  c = ' ' || c = '\t' || c = '\n' || c = '\r'

def skipWs (s : List Char) : List Char := s.dropWhile isJsonWs

def isDigitCh (c : Char) : Bool := 48 ≤ c.toNat && c.toNat ≤ 57

def parseHexDigit (c : Char) : Option Nat :=
  if 48 ≤ c.toNat ∧ c.toNat ≤ 57 then some (c.toNat - 48)
  else if 97 ≤ c.toNat ∧ c.toNat ≤ 102 then some (c.toNat - 97 + 10)
  else if 65 ≤ c.toNat ∧ c.toNat ≤ 70 then some (c.toNat - 65 + 10)
  else none

def escDecode (c : Char) : Option Char :=
  if c = '"' then some '"'
  else if c = '\\' then some '\\'
  else if c = '/' then some '/'
  else if c = 'b' then some (Char.ofNat 8)
  else if c = 'f' then some (Char.ofNat 12)
  else if c = 'n' then some (Char.ofNat 10)
  else if c = 'r' then some (Char.ofNat 13)
  else if c = 't' then some (Char.ofNat 9)
  else none

mutual

/-- Parses the body of a JSON string after the opening quote, up to and
including the closing quote; yields the decoded text and the rest. -/
def parseStringBody : List Char → Option (List Char × List Char)
  | [] => none
  | c :: rest =>
    if c = '"' then some ([], rest)
    else if c = '\\' then parseStringEsc rest
    else if c.toNat < 32 then none
    else (parseStringBody rest).map (fun r => (c :: r.1, r.2))
termination_by s => s.length

/-- Parses what follows a backslash inside a JSON string. -/
def parseStringEsc : List Char → Option (List Char × List Char)
  | 'u' :: h1 :: h2 :: h3 :: h4 :: rest =>
    match parseHexDigit h1, parseHexDigit h2, parseHexDigit h3, parseHexDigit h4 with
    | some a, some b, some c, some d =>
      let n := a * 4096 + b * 256 + c * 16 + d
      if 0xD800 ≤ n ∧ n < 0xE000 then none
      else (parseStringBody rest).map (fun r => (Char.ofNat n :: r.1, r.2))
    | _, _, _, _ => none
  | e :: rest =>
    match escDecode e with
    | some c => (parseStringBody rest).map (fun r => (c :: r.1, r.2))
    | none => none
  | [] => none
termination_by s => s.length

end

def parseNum (c : Char) (r : List Char) : Option (Json × List Char) :=
  if isDigitCh c then
    some (.num ((parseDigits ((c :: r).takeWhile isDigitCh) : Nat) : Int),
      (c :: r).dropWhile isDigitCh)
  else none

def parseNegNum : List Char → Option (Json × List Char)
  | c :: r =>
    if isDigitCh c then
      some (.num (-((parseDigits ((c :: r).takeWhile isDigitCh) : Nat) : Int)),
        (c :: r).dropWhile isDigitCh)
    else none
  | [] => none

mutual

def parseVal : Nat → List Char → Option (Json × List Char)
  | 0, _ => none
  | fuel + 1, s0 =>
    match skipWs s0 with
    | 'n' :: 'u' :: 'l' :: 'l' :: r => some (.null, r)
    | 't' :: 'r' :: 'u' :: 'e' :: r => some (.bool true, r)
    | 'f' :: 'a' :: 'l' :: 's' :: 'e' :: r => some (.bool false, r)
    | '"' :: r => (parseStringBody r).map (fun p => (.str p.1, p.2))
    | '[' :: r =>
      match skipWs r with
      | ']' :: r2 => some (.arr [], r2)
      | _ => (parseItems fuel r).map (fun p => (.arr p.1, p.2))
    | '{' :: r =>
      match skipWs r with
      | '}' :: r2 => some (.obj [], r2)
      | _ => (parseMembers fuel r).map (fun p => (.obj p.1, p.2))
    | '-' :: r => parseNegNum r
    | c :: r => parseNum c r
    | [] => none

def parseItems : Nat → List Char → Option (List Json × List Char)
  | 0, _ => none
  | fuel + 1, s =>
    (parseVal fuel s).bind fun p =>
      match skipWs p.2 with
      | ',' :: r2 => (parseItems fuel r2).map (fun q => (p.1 :: q.1, q.2))
      | ']' :: r2 => some ([p.1], r2)
      | _ => none

def parseMembers : Nat → List Char → Option (List (List Char × Json) × List Char)
  | 0, _ => none
  | fuel + 1, s =>
    match skipWs s with
    | '"' :: r =>
      (parseStringBody r).bind fun kp =>
        match skipWs kp.2 with
        | ':' :: r2 =>
          (parseVal fuel r2).bind fun vp =>
            match skipWs vp.2 with
            | ',' :: r4 => (parseMembers fuel r4).map (fun q => ((kp.1, vp.1) :: q.1, q.2))
            | '}' :: r4 => some ([(kp.1, vp.1)], r4)
            | _ => none
        | _ => none
    | _ => none

end

/-- Model of `JSON.parse`: parse one value, allow trailing whitespace
only; `none` models a thrown `SyntaxError`. -/
def jsonParse (s : List Char) : Option Json :=
  match parseVal (s.length + 1) s with
  | some (v, rest) => if (skipWs rest).isEmpty then some v else none
  | none => none

/-! ### Round trip of `jsonParse` over `stringify` -/
mutual

def jweight : Json → Nat
  | .arr xs => 1 + jweightItems xs
  | .obj kvs => 1 + jweightMembers kvs
  | .str _ => 1
  | .num _ => 1
  | .bool _ => 1
  | .null => 1

def jweightItems : List Json → Nat
  | [] => 0
  | x :: more => 1 + jweight x + jweightItems more

def jweightMembers : List (List Char × Json) → Nat
  | [] => 0
  | (_, w) :: more => 1 + jweight w + jweightMembers more

end

def headNotDigit : List Char → Prop
  | [] => True
  | c :: _ => isDigitCh c = false

/-! ## Outgoing session (background `processQueue` / `sendMessage`)

One destination (tab) of the background endpoint.  The state gathers the
fields of `tabState.get(tabId)`, the entries of the global
`pendingRequests` map belonging to this destination, a counter backing
`generateId` (modelling `crypto.randomUUID()` as injective id
generation), and a log of externally visible events.  Request tokens
(`Nat`) stand for the caller-visible promises. -/
inductive SEvent where
  | transmit (id : List Char) (r : Nat)
  | settledOk (r : Nat)
  | settledTimeout (r : Nat)
  deriving DecidableEq, Repr

/-- Model of `crypto.randomUUID()`: the id drawn at counter value `k`.
Injectivity models global uniqueness of UUIDs. -/
def genId (k : Nat) : List Char := natToChars k

structure MState where
  nextId : Nat
  queue : List Nat
  isSending : Bool
  pending : List (List Char × Nat)
  log : List SEvent
  deriving DecidableEq, Repr

def initM : MState := ⟨0, [], false, [], []⟩

/-- `processQueue` from the source: returns immediately when a send is
in flight or the queue is empty; otherwise sets `isSending`, shifts the
queue, registers the resolver under a fresh id in `pendingRequests`, and
starts `sendChunks` (the `transmit` event; the 30-second timer armed
here fires as a separate `timeoutFired` step). -/
def processQueue (st : MState) : MState :=
  if st.isSending then st
  else
    match st.queue with
    | [] => st
    | r :: rest =>
      { nextId := st.nextId + 1
        queue := rest
        isSending := true
        pending := (genId st.nextId, r) :: st.pending
        log := st.log ++ [.transmit (genId st.nextId) r] }

/-- `sendMessage` from the source: push `{message, resolve, reject}` and
drive the queue. -/
def sendMessage (r : Nat) (st : MState) : MState :=
  processQueue { st with queue := st.queue ++ [r] }

/-- The `RES` branch of `handleIncoming` for a reassembled response with
id `id`: if a resolver is registered, run it (resolve the caller, clear
`isSending`, re-drive the queue) and then delete the pending entry. -/
def handleResponse (id : List Char) (st : MState) : MState :=
  match lookupA st.pending id with
  | none => st
  | some r =>
    let st1 := processQueue { st with
      log := st.log ++ [.settledOk r]
      isSending := false }
    { st1 with pending := eraseA st1.pending id }

/-- The `setTimeout` callback armed by `processQueue`: if the pending
entry is still present, delete it, reject the caller with `Timeout`,
clear `isSending` and re-drive the queue; otherwise do nothing. -/
def timeoutFired (id : List Char) (st : MState) : MState :=
  match lookupA st.pending id with
  | none => st
  | some r =>
    processQueue { st with
      pending := eraseA st.pending id
      log := st.log ++ [.settledTimeout r]
      isSending := false }

inductive MStep where
  | send (r : Nat)
  | response (id : List Char)
  | timeout (id : List Char)
  deriving DecidableEq, Repr

def applyStep (e : MStep) (st : MState) : MState :=
  match e with
  | .send r => sendMessage r st
  | .response id => handleResponse id st
  | .timeout id => timeoutFired id st

def run (st : MState) : List MStep → MState
  | [] => st
  | e :: es => run (applyStep e st) es

def submittedTokens : List MStep → List Nat
  | [] => []
  | .send r :: es => r :: submittedTokens es
  | .response _ :: es => submittedTokens es
  | .timeout _ :: es => submittedTokens es

def settledTokens : List SEvent → List Nat
  | [] => []
  | .settledOk r :: es => r :: settledTokens es
  | .settledTimeout r :: es => r :: settledTokens es
  | .transmit _ _ :: es => settledTokens es

def pendingTokens (st : MState) : List Nat := st.pending.map Prod.snd

/-- Well-formedness of a session state: every pending id was produced by
the id generator below the current counter, `isSending` holds exactly
when one request is in flight, and at most one request is ever in
flight. -/
def WfM (st : MState) : Prop :=
  (∀ p ∈ st.pending, ∃ k, k < st.nextId ∧ p.1 = genId k) ∧
  (st.isSending = true ↔ st.pending.length = 1) ∧
  st.pending.length ≤ 1

/-- Conservation account: the settled tokens, the in-flight tokens and
the queued tokens, in that order. -/
def acct (st : MState) : List Nat := settledTokens st.log ++ pendingTokens st ++ st.queue

/-! ## Reassembly buffer (background `handleIncoming`) -/
inductive FrameType where
  | req
  | res
  deriving DecidableEq, Repr

/-- Model of the JS array created by `new Array(total)` and written with
`buffer[index] = data`: `len` is the array's `length` property, `slots`
the filled indices.  Writing at or beyond `len` grows the array, as in
JS. -/
structure JsBuffer where
  len : Nat
  slots : List (Nat × List Char)
  deriving DecidableEq, Repr

def emptyBuffer (total : Nat) : JsBuffer := ⟨total, []⟩

def setSlot (b : JsBuffer) (i : Nat) (v : List Char) : JsBuffer :=
  ⟨max b.len (i + 1), setA b.slots i v⟩

/-- `buffer.filter(v => v !== undefined).length`. -/
def filledCount (b : JsBuffer) : Nat := b.slots.length

/-- `buffer.join('')`: holes render as the empty string. -/
def joinBuffer (b : JsBuffer) : List Char :=
  ((List.range b.len).map (fun i => (lookupA b.slots i).getD [])).flatten

inductive BgEmit where
  | ack (id : List Char) (index : Nat)
  | dispatched (id : List Char) (msg : Json)

inductive Outcome where
  | ok
  | threw
  deriving DecidableEq, Repr

structure BgState where
  sess : MState
  buffers : List (List Char × JsBuffer)

/-- The chunk-processing body of the background `handleIncoming`, after
the `MSG:` regex has matched and `index`/`total` have been parsed: create
the reassembly entry on first sight of `id` (sized by this frame's
`total`), store the chunk, acknowledge it, and on completion (filled
count equal to the **current** frame's `total`) decode and either
dispatch a request or resolve the pending request.  `Outcome.threw`
models `decodeBase64`/`JSON.parse` raising on a malformed reassembled
payload — note the mutations performed before the raise persist and
`incomingBuffers.delete(id)` is not reached. -/
def onChunkBG (st : BgState) (ty : FrameType) (id : List Char) (index total : Nat)
    (data : List Char) : BgState × List BgEmit × Outcome :=
  let bufs0 := if (lookupA st.buffers id).isSome then st.buffers
               else (id, emptyBuffer total) :: st.buffers
  let b := (lookupA bufs0 id).getD (emptyBuffer total)
  let b1 := setSlot b index data
  let bufs1 := setA bufs0 id b1
  if filledCount b1 = total then
    match (decodeBase64 (joinBuffer b1)).bind jsonParse with
    | none => ({ st with buffers := bufs1 }, [.ack id index], .threw)
    | some msg =>
      let bufs2 := eraseA bufs1 id
      match ty with
      | .req => ({ st with buffers := bufs2 }, [.ack id index, .dispatched id msg], .ok)
      | .res => ({ sess := handleResponse id st.sess, buffers := bufs2 }, [.ack id index], .ok)
  else ({ st with buffers := bufs1 }, [.ack id index], .ok)

/-! ## Stop-and-wait chunk sender (`sendChunks`, background variant) -/
def frameTypeChars : FrameType → List Char
  | .req => "REQ".toList
  | .res => "RES".toList

/-- `ACK:${id}:${n}` — the exact string `sendChunks` compares the
observed hash against (`n` is the JS number `index - 1`, which can be
`-1`). -/
def ackString (id : List Char) (n : Int) : List Char :=
  "ACK:".toList ++ (id ++ ':' :: intToChars n)

/-- `MSG:${type}:${id}:${index}/${total}:${chunks[index]}` — the payload
written by `sendNext`.  Indexing past the chunk array yields JS
`undefined`, rendered as the text `undefined` by the template literal. -/
def msgString (ty : FrameType) (id : List Char) (index total : Nat)
    (chunk : List Char) : List Char :=
  "MSG:".toList ++ frameTypeChars ty ++ ':' :: id ++ ':' :: natToChars index ++
    '/' :: natToChars total ++ ':' :: chunk

def chunkAt (chunks : List (List Char)) (i : Nat) : List Char :=
  (chunks.get? i).getD ("undefined".toList)

/-- State of one `sendChunks` call: `index` is the closure variable (next
chunk to write), `done` records that the listener was removed and the
promise resolved. -/
structure SendState where
  index : Nat
  done : Bool
  deriving DecidableEq, Repr

/-- One `onUpdated` listener invocation of `sendChunks`, observing hash
`h`: if `h` is exactly `ACK:id:(index-1)`, the next chunk is written
(when any remains) or the promise resolves; any other observed value
leaves the state unchanged and writes nothing. -/
def onUpdated (ty : FrameType) (id : List Char) (chunks : List (List Char))
    (st : SendState) (h : List Char) : SendState × Option (List Char) :=
  if st.done then (st, none)
  else if h = ackString id ((st.index : Int) - 1) then
    if st.index < chunks.length then
      ({ st with index := st.index + 1 },
        some (msgString ty id st.index chunks.length (chunkAt chunks st.index)))
    else ({ st with done := true }, none)
  else (st, none)

/-- The initial transmission of `sendChunks`: chunk `0` is written
unconditionally and `index` becomes `1`. -/
def startSend (ty : FrameType) (id : List Char) (chunks : List (List Char)) :
    SendState × List Char :=
  (⟨1, false⟩, msgString ty id 0 chunks.length (chunkAt chunks 0))

/-! ## Dispatch layer (`dispatchRequest`) -/
/-- `dispatchRequest`: iterate the registered handlers in registration
order; each is invoked with the message and the destination context.
A handler call is modelled in two stages, mirroring
`const response = handler(message, ...); if (response !== undefined)
sendResponse(await response);`: the outer `Option` is the IMMEDIATE
(un-awaited) return value — `none` is `undefined`, for which the `if`
fails and nothing happens, no latch — and the inner `Option Json` is the
value `await response` settles to, which may itself be `undefined`
(`none`): a promise can settle to `undefined`, and a synchronous
non-`undefined` value settles to itself.  Every handler whose immediate
result is present reaches `sendResponse` with its settled value, and the
`responded` latch transmits only the first such settled value — even
when that settled value is `undefined`.  Returns the transmitted
response payloads (`none` = a `RES` frame carrying `undefined`) and the
per-handler results in invocation order. -/
def dispatchLoop {Ctx : Type} (msg : Json) (ctx : Ctx) :
    List (Json → Ctx → Option (Option Json)) → Bool →
      List (Option Json) × List (Option (Option Json))
  | [], _ => ([], [])
  | hd :: hs, responded =>
    match hd msg ctx with
    | none =>
      let t := dispatchLoop msg ctx hs responded
      (t.1, none :: t.2)
    | some settled =>
      if responded then
        let t := dispatchLoop msg ctx hs true
        (t.1, some settled :: t.2)
      else
        let t := dispatchLoop msg ctx hs true
        (settled :: t.1, some settled :: t.2)

def dispatchRequest {Ctx : Type} (handlers : List (Json → Ctx → Option (Option Json)))
    (msg : Json) (ctx : Ctx) : List (Option Json) × List (Option (Option Json)) :=
  dispatchLoop msg ctx handlers false

/-! ## Contents endpoint (`HashMessagingContents`, handshake variant) -/
inductive CEmit where
  | raw (payload : List Char)
  | dispatched (id : List Char) (msg : Json)

structure CState where
  secret : Option (List Char)
  sess : MState
  buffers : List (List Char × JsBuffer)

/-- Contents-side `processQueue`: in addition to the background checks it
returns early while no session secret has been established.  The JS
guard is `if (!secret) return`, and the empty string is falsy too: a
secret handshaken as `""` (a bare `INIT:` frame) also keeps the queue
undriven. -/
def processQueueC (secret : Option (List Char)) (st : MState) : MState :=
  if st.isSending then st
  else
    match st.queue with
    | [] => st
    | r :: rest =>
      match secret with
      | none => st
      | some [] => st
      | some (_ :: _) =>
        { nextId := st.nextId + 1
          queue := rest
          isSending := true
          pending := (genId st.nextId, r) :: st.pending
          log := st.log ++ [.transmit (genId st.nextId) r] }

def handleResponseC (secret : Option (List Char)) (id : List Char) (st : MState) : MState :=
  match lookupA st.pending id with
  | none => st
  | some r =>
    let st1 := processQueueC secret { st with
      log := st.log ++ [.settledOk r]
      isSending := false }
    { st1 with pending := eraseA st1.pending id }

/-- Rendering of the `secret` variable inside a template literal
(`null` renders as the text `null`; in practice the secret is always
established before any frame embedding it is produced). -/
def optChars : Option (List Char) → List Char
  | none => "null".toList
  | some s => s

/-- Group structure of the contents-side regex
`^MSG:([^:]+):(REQ|RES):([^:]+):([^:]+):(.+)$` — each `[^:]+` group is
the non-empty text before the next `:`, and the final `(.+)` group is the
non-empty remainder.  The groups cannot span a `:`, so the match is
deterministic. -/
def splitColon (s : List Char) : Option (List Char × List Char) :=
  match s.dropWhile (· ≠ ':') with
  | ':' :: r => if s.takeWhile (· ≠ ':') = [] then none else some (s.takeWhile (· ≠ ':'), r)
  | _ => none

def parseType : List Char → Option (FrameType × List Char)
  | 'R' :: 'E' :: 'Q' :: ':' :: r => some (.req, r)
  | 'R' :: 'E' :: 'S' :: ':' :: r => some (.res, r)
  | _ => none

def parseMsgFrameC (h : List Char) :
    Option (List Char × FrameType × List Char × List Char × List Char) :=
  match h with
  | 'M' :: 'S' :: 'G' :: ':' :: rest =>
    (splitColon rest).bind fun sp =>
      (parseType sp.2).bind fun tp =>
        (splitColon tp.2).bind fun ip =>
          (splitColon ip.2).bind fun qp =>
            if qp.2 = [] then none else some (sp.1, tp.1, ip.1, qp.1, qp.2)
  | _ => none

/-- `parseInt(s, 10)` on the text of an `index`/`total` segment: value of
the leading digit run, `none` for `NaN`. -/
def parseIntJS (s : List Char) : Option Nat :=
  match s.takeWhile isDigitCh with
  | [] => none
  | ds => some (parseDigits ds)

/-- `seq.split('/')` followed by `parseInt` on the first two pieces. -/
def parseSeq (seq : List Char) : Option (Nat × Nat) :=
  match seq.dropWhile (· ≠ '/') with
  | '/' :: totalStr =>
    (parseIntJS (seq.takeWhile (· ≠ '/'))).bind fun i =>
      (parseIntJS totalStr).map fun t => (i, t)
  | _ => none

def ackRawC (secret : Option (List Char)) (id : List Char) (indexText : List Char) :
    List Char :=
  "ACK:".toList ++ optChars secret ++ ':' :: id ++ ':' :: indexText

/-- Chunk processing of the contents `handleIncoming` after the secret
check has passed (same structure as the background variant, with
secret-bearing acknowledgments and the contents resolver). -/
def onChunkC (st : CState) (ty : FrameType) (id : List Char) (index total : Nat)
    (data : List Char) : CState × List CEmit × Outcome :=
  let bufs0 := if (lookupA st.buffers id).isSome then st.buffers
               else (id, emptyBuffer total) :: st.buffers
  let b := (lookupA bufs0 id).getD (emptyBuffer total)
  let b1 := setSlot b index data
  let bufs1 := setA bufs0 id b1
  let ackE := CEmit.raw (ackRawC st.secret id (natToChars index))
  if filledCount b1 = total then
    match (decodeBase64 (joinBuffer b1)).bind jsonParse with
    | none => ({ st with buffers := bufs1 }, [ackE], .threw)
    | some msg =>
      let bufs2 := eraseA bufs1 id
      match ty with
      | .req => ({ st with buffers := bufs2 }, [ackE, .dispatched id msg], .ok)
      | .res => ({ st with
          sess := handleResponseC st.secret id st.sess
          buffers := bufs2 }, [ackE], .ok)
  else ({ st with buffers := bufs1 }, [ackE], .ok)

/-- The contents `handleIncoming`, observing the current hash `h`:
`INIT:` frames establish the secret, answer `ACK-INIT` and drive the
queue; `MSG:` frames are parsed against the regex and dropped unless the
embedded secret equals the stored one; anything else is ignored.  An
unparseable `index/total` segment (`parseInt` → `NaN`) makes
`new Array(NaN)` throw when no entry exists yet; with an existing entry
the JS write lands on a non-index property invisible to
`filter`/`join`, the ack (with index text `NaN`) is still sent, and the
completion test `count === NaN` is false. -/
def handleIncomingC (st : CState) (h : List Char) : CState × List CEmit × Outcome :=
  if h.take 5 = "INIT:".toList then
    let sec := h.drop 5
    ({ secret := some sec
       sess := processQueueC (some sec) st.sess
       buffers := st.buffers },
      [.raw ("ACK-INIT:".toList ++ sec)], .ok)
  else if h.take 4 = "MSG:".toList then
    match parseMsgFrameC h with
    | none => (st, [], .ok)
    | some (sec, ty, id, seq, data) =>
      if st.secret = some sec then
        match parseSeq seq with
        | none =>
          if (lookupA st.buffers id).isSome then
            (st, [.raw (ackRawC st.secret id ("NaN".toList))], .ok)
          else (st, [], .threw)
        | some (index, total) => onChunkC st ty id index total data
      else (st, [], .ok)
  else (st, [], .ok)

/-! ## Claim theorems -/
/-- `encodeBase64(JSON.stringify(data))`, the transport encoding computed
by `sendChunks`. -/
def encodeMessage (m : Json) : List Char := encodeBase64 (stringify m)

/-- The receive side of the codec in `handleIncoming`: the chunks are
concatenated in index order (`buffer.join('')`) and decoded by
`JSON.parse(decodeBase64(full))`; `none` models a thrown exception. -/
def decodeMessage (chunks : List (List Char)) : Option Json :=
  (decodeBase64 chunks.flatten).bind jsonParse

/-- Number of settle events (resolution or timeout rejection) recorded
for request token `r`. -/
def countSettled (r : Nat) (log : List SEvent) : Nat := (settledTokens log).count r

/-! ## Theorems -/

theorem lookupA_setA_self {α β : Type} [DecidableEq α] (l : List (α × β)) (a : α) (b : β) :
    lookupA (setA l a b) a = some b := by
  induction l with
  | nil => simp [setA, lookupA]
  | cons kv rest ih =>
    obtain ⟨k, v⟩ := kv
    by_cases h : k = a <;> simp [setA, lookupA, h, ih]

theorem lookupA_setA_ne {α β : Type} [DecidableEq α] (l : List (α × β)) (a c : α) (b : β)
    (h : c ≠ a) : lookupA (setA l a b) c = lookupA l c := by
  induction l with
  | nil => simp [setA, lookupA, fun hh => h hh.symm ∘ Eq.symm, (Ne.symm h)]
  | cons kv rest ih =>
    obtain ⟨k, v⟩ := kv
    by_cases hk : k = a
    · subst hk
      simp [setA, lookupA, Ne.symm h]
    · simp [setA, lookupA, hk, ih]

theorem lookupA_eraseA_self {α β : Type} [DecidableEq α] (l : List (α × β)) (a : α)
    (hnd : (l.map Prod.fst).Nodup) : lookupA (eraseA l a) a = none := by
  induction l with
  | nil => simp [eraseA, lookupA]
  | cons kv rest ih =>
    obtain ⟨k, v⟩ := kv
    simp only [List.map_cons, List.nodup_cons] at hnd
    by_cases h : k = a
    · subst h
      simp only [eraseA, if_pos rfl, if_true]
      -- k does not occur in rest, so the lookup fails
      clear ih
      induction rest with
      | nil => simp [lookupA]
      | cons kv2 rest2 ih2 =>
        obtain ⟨k2, v2⟩ := kv2
        simp only [List.map_cons, List.mem_cons, List.nodup_cons] at hnd
        have hk2 : k2 ≠ k := fun hh => hnd.1 (Or.inl hh.symm)
        simp only [lookupA, if_neg hk2]
        exact ih2 ⟨fun hm => hnd.1 (Or.inr hm), hnd.2.2⟩
    · simp only [eraseA, if_neg h, lookupA, if_neg h]
      exact ih hnd.2

theorem lookupA_eraseA_ne {α β : Type} [DecidableEq α] (l : List (α × β)) (a c : α)
    (h : c ≠ a) : lookupA (eraseA l a) c = lookupA l c := by
  induction l with
  | nil => simp [eraseA]
  | cons kv rest ih =>
    obtain ⟨k, v⟩ := kv
    by_cases hk : k = a
    · subst hk
      have hkc : ¬(k = c) := fun hh => h hh.symm
      simp [eraseA, lookupA, hkc]
    · simp only [eraseA, if_neg hk, lookupA]
      by_cases hkc : k = c
      · simp [hkc]
      · simp [hkc, ih]

theorem toNat_Char_ofNat {n : Nat} (h : n.isValidChar) : (Char.ofNat n).toNat = n := by
  rw [Char.ofNat, dif_pos h]
  rfl

theorem toNat_digitChar {d : Nat} (h : d < 10) : (digitChar d).toNat = 48 + d := by
  have hv : (48 + d).isValidChar := by
    left
    omega
  rw [digitChar, toNat_Char_ofNat hv]

theorem parseDigitsAcc_append (a : Nat) (l₁ l₂ : List Char) :
    parseDigitsAcc a (l₁ ++ l₂) = parseDigitsAcc (parseDigitsAcc a l₁) l₂ := by
  simp [parseDigitsAcc, List.foldl_append]

theorem parseDigitsAcc_digits (a : Nat) (l : List Nat) (hl : ∀ d ∈ l, d < 10) :
    parseDigitsAcc a (l.reverse.map digitChar) = a * 10 ^ l.length + Nat.ofDigits 10 l := by
  induction l generalizing a with
  | nil => simp [parseDigitsAcc]
  | cons d ds ih =>
    have hd : d < 10 := hl d (List.mem_cons_self d ds)
    have hds : ∀ x ∈ ds, x < 10 := fun x hx => hl x (List.mem_cons_of_mem d hx)
    simp only [List.reverse_cons, List.map_append, List.map_cons, List.map_nil,
      parseDigitsAcc_append, ih a hds]
    simp only [parseDigitsAcc, List.foldl_cons, List.foldl_nil, toNat_digitChar hd]
    have hsub : 48 + d - 48 = d := by omega
    rw [hsub, Nat.ofDigits_cons, List.length_cons, pow_succ]
    ring

theorem parseDigits_natToChars (n : Nat) : parseDigits (natToChars n) = n := by
  by_cases h : n = 0
  · subst h
    simp [natToChars, parseDigits, parseDigitsAcc]
  · simp only [natToChars, if_neg h, parseDigits]
    rw [parseDigitsAcc_digits 0 _ (fun d hd => Nat.digits_lt_base (by norm_num) hd)]
    simp [Nat.ofDigits_digits]

theorem natToChars_injective : Function.Injective natToChars := by
  intro m n h
  have := parseDigits_natToChars m
  rw [h, parseDigits_natToChars] at this
  exact this.symm

theorem natToChars_ne_nil (n : Nat) : natToChars n ≠ [] := by
  by_cases h : n = 0
  · simp [natToChars, h]
  · simp only [natToChars, if_neg h]
    have : Nat.digits 10 n ≠ [] := Nat.digits_ne_nil_iff_ne_zero.mpr h
    simp [this]

theorem mem_natToChars_isDigit (n : Nat) :
    ∀ c ∈ natToChars n, 48 ≤ c.toNat ∧ c.toNat ≤ 57 := by
  intro c hc
  by_cases h : n = 0
  · simp [natToChars, h] at hc
    subst hc
    decide
  · simp only [natToChars, if_neg h, List.mem_map, List.mem_reverse] at hc
    obtain ⟨d, hd, rfl⟩ := hc
    have : d < 10 := Nat.digits_lt_base (by norm_num) hd
    rw [toNat_digitChar this]
    omega

theorem intToChars_injective : Function.Injective intToChars := by
  intro m n h
  have hminus : ∀ k : Nat, '-' ∉ natToChars k := by
    intro k hmem
    have := mem_natToChars_isDigit k '-' hmem
    exact absurd this (by decide)
  by_cases hm : m < 0 <;> by_cases hn : n < 0 <;>
    simp only [intToChars, hm, hn, if_true, if_false, reduceIte] at h
  · injection h with h1 h2
    have := natToChars_injective h2
    omega
  · exact absurd (h ▸ List.mem_cons_self '-' (natToChars m.natAbs)) (hminus n.natAbs)
  · exact absurd (h.symm ▸ List.mem_cons_self '-' (natToChars n.natAbs)) (hminus m.natAbs)
  · have := natToChars_injective h
    omega

theorem isValidChar_toNat (c : Char) : c.toNat.isValidChar := c.valid

theorem utf8EncodeChar_eq1 (c : Char) (h1 : c.toNat < 0x80) :
    utf8EncodeChar c = [c.toNat] := by
  unfold utf8EncodeChar
  simp only [if_pos h1]

theorem utf8EncodeChar_eq2 (c : Char) (h1 : ¬c.toNat < 0x80) (h2 : c.toNat < 0x800) :
    utf8EncodeChar c = [0xC0 + c.toNat / 64, 0x80 + c.toNat % 64] := by
  unfold utf8EncodeChar
  simp only [if_neg h1, if_pos h2]

theorem utf8EncodeChar_eq3 (c : Char) (h1 : ¬c.toNat < 0x80) (h2 : ¬c.toNat < 0x800)
    (h3 : c.toNat < 0x10000) :
    utf8EncodeChar c = [0xE0 + c.toNat / 4096, 0x80 + c.toNat / 64 % 64, 0x80 + c.toNat % 64] := by
  unfold utf8EncodeChar
  simp only [if_neg h1, if_neg h2, if_pos h3]

theorem utf8EncodeChar_eq4 (c : Char) (h1 : ¬c.toNat < 0x80) (h2 : ¬c.toNat < 0x800)
    (h3 : ¬c.toNat < 0x10000) :
    utf8EncodeChar c = [0xF0 + c.toNat / 262144, 0x80 + c.toNat / 4096 % 64,
      0x80 + c.toNat / 64 % 64, 0x80 + c.toNat % 64] := by
  unfold utf8EncodeChar
  simp only [if_neg h1, if_neg h2, if_neg h3]

theorem u8Step_encodeChar (c : Char) (acc : List Char) :
    List.foldl u8Step (some ⟨acc, 0, 0, 0⟩) (utf8EncodeChar c) = some ⟨c :: acc, 0, 0, 0⟩ := by
  have hvalid := isValidChar_toNat c
  have hlt : c.toNat < 0x110000 := by
    rcases hvalid with h | ⟨ha, hb⟩ <;> omega
  have hns : ¬(0xD800 ≤ c.toNat ∧ c.toNat < 0xE000) := by
    rcases hvalid with h | ⟨ha, hb⟩ <;> omega
  by_cases h1 : c.toNat < 0x80
  · rw [utf8EncodeChar_eq1 c h1]
    simp only [List.foldl_cons, List.foldl_nil, u8Step, if_pos h1, if_pos rfl, if_true,
      Char.ofNat_toNat]
  · by_cases h2 : c.toNat < 0x800
    · rw [utf8EncodeChar_eq2 c h1 h2]
      have ha1 : ¬(0xC0 + c.toNat / 64 < 0x80) := by omega
      have ha2 : ¬(0xC0 + c.toNat / 64 < 0xC0) := by omega
      have ha3 : 0xC0 + c.toNat / 64 < 0xE0 := by omega
      simp only [List.foldl_cons, List.foldl_nil]
      rw [show u8Step (some ⟨acc, 0, 0, 0⟩) (0xC0 + c.toNat / 64) =
          some ⟨acc, 1, 0xC0 + c.toNat / 64 - 0xC0, 0x80⟩ by
        simp only [u8Step, if_pos rfl, if_true, if_neg ha1, if_neg ha2, if_pos ha3]]
      have hb1 : (0x80 : Nat) ≤ 0x80 + c.toNat % 64 ∧ 0x80 + c.toNat % 64 < 0xC0 := by
        constructor <;> omega
      have hval : (0xC0 + c.toNat / 64 - 0xC0) * 64 + (0x80 + c.toNat % 64 - 0x80) = c.toNat := by
        omega
      have hok : ¬(c.toNat < 0x80 ∨ (0xD800 ≤ c.toNat ∧ c.toNat < 0xE000) ∨
          0x110000 ≤ c.toNat) := by
        push_neg at hns ⊢
        refine ⟨by omega, hns, by omega⟩
      simp only [u8Step, if_neg (by omega : ¬(1 : Nat) = 0), if_pos hb1, if_pos rfl, if_true, hval,
        if_neg hok, Char.ofNat_toNat]
    · by_cases h3 : c.toNat < 0x10000
      · rw [utf8EncodeChar_eq3 c h1 h2 h3]
        have ha1 : ¬(0xE0 + c.toNat / 4096 < 0x80) := by omega
        have ha2 : ¬(0xE0 + c.toNat / 4096 < 0xC0) := by omega
        have ha3 : ¬(0xE0 + c.toNat / 4096 < 0xE0) := by omega
        have ha4 : 0xE0 + c.toNat / 4096 < 0xF0 := by omega
        simp only [List.foldl_cons, List.foldl_nil]
        rw [show u8Step (some ⟨acc, 0, 0, 0⟩) (0xE0 + c.toNat / 4096) =
            some ⟨acc, 2, 0xE0 + c.toNat / 4096 - 0xE0, 0x800⟩ by
          simp only [u8Step, if_pos rfl, if_true, if_neg ha1, if_neg ha2, if_neg ha3, if_pos ha4]]
        have hb1 : (0x80 : Nat) ≤ 0x80 + c.toNat / 64 % 64 ∧ 0x80 + c.toNat / 64 % 64 < 0xC0 := by
          constructor <;> omega
        rw [show u8Step (some ⟨acc, 2, 0xE0 + c.toNat / 4096 - 0xE0, 0x800⟩)
            (0x80 + c.toNat / 64 % 64) = some ⟨acc, 1,
              (0xE0 + c.toNat / 4096 - 0xE0) * 64 + (0x80 + c.toNat / 64 % 64 - 0x80),
              0x800⟩ by
          simp only [u8Step, if_neg (by omega : ¬(2 : Nat) = 0), if_pos hb1,
            if_neg (by omega : ¬(2 : Nat) = 1)]]
        have hb2 : (0x80 : Nat) ≤ 0x80 + c.toNat % 64 ∧ 0x80 + c.toNat % 64 < 0xC0 := by
          constructor <;> omega
        have hval : ((0xE0 + c.toNat / 4096 - 0xE0) * 64 + (0x80 + c.toNat / 64 % 64 - 0x80)) * 64
            + (0x80 + c.toNat % 64 - 0x80) = c.toNat := by
          omega
        have hok : ¬(c.toNat < 0x800 ∨ (0xD800 ≤ c.toNat ∧ c.toNat < 0xE000) ∨
            0x110000 ≤ c.toNat) := by
          push_neg at hns ⊢
          refine ⟨by omega, hns, by omega⟩
        simp only [u8Step, if_neg (by omega : ¬(1 : Nat) = 0), if_pos hb2, if_pos rfl, if_true, hval,
          if_neg hok, Char.ofNat_toNat]
      · rw [utf8EncodeChar_eq4 c h1 h2 h3]
        have ha1 : ¬(0xF0 + c.toNat / 262144 < 0x80) := by omega
        have ha2 : ¬(0xF0 + c.toNat / 262144 < 0xC0) := by omega
        have ha3 : ¬(0xF0 + c.toNat / 262144 < 0xE0) := by omega
        have ha4 : ¬(0xF0 + c.toNat / 262144 < 0xF0) := by omega
        have ha5 : 0xF0 + c.toNat / 262144 < 0xF8 := by omega
        simp only [List.foldl_cons, List.foldl_nil]
        rw [show u8Step (some ⟨acc, 0, 0, 0⟩) (0xF0 + c.toNat / 262144) =
            some ⟨acc, 3, 0xF0 + c.toNat / 262144 - 0xF0, 0x10000⟩ by
          simp only [u8Step, if_pos rfl, if_true, if_neg ha1, if_neg ha2, if_neg ha3, if_neg ha4,
            if_pos ha5]]
        have hb1 : (0x80 : Nat) ≤ 0x80 + c.toNat / 4096 % 64 ∧
            0x80 + c.toNat / 4096 % 64 < 0xC0 := by
          constructor <;> omega
        rw [show u8Step (some ⟨acc, 3, 0xF0 + c.toNat / 262144 - 0xF0, 0x10000⟩)
            (0x80 + c.toNat / 4096 % 64) = some ⟨acc, 2,
              (0xF0 + c.toNat / 262144 - 0xF0) * 64 + (0x80 + c.toNat / 4096 % 64 - 0x80),
              0x10000⟩ by
          simp only [u8Step, if_neg (by omega : ¬(3 : Nat) = 0), if_pos hb1,
            if_neg (by omega : ¬(3 : Nat) = 1)]]
        have hb2 : (0x80 : Nat) ≤ 0x80 + c.toNat / 64 % 64 ∧ 0x80 + c.toNat / 64 % 64 < 0xC0 := by
          constructor <;> omega
        rw [show u8Step (some ⟨acc, 2,
            (0xF0 + c.toNat / 262144 - 0xF0) * 64 + (0x80 + c.toNat / 4096 % 64 - 0x80),
            0x10000⟩) (0x80 + c.toNat / 64 % 64) = some ⟨acc, 1,
              ((0xF0 + c.toNat / 262144 - 0xF0) * 64 + (0x80 + c.toNat / 4096 % 64 - 0x80)) * 64 +
                (0x80 + c.toNat / 64 % 64 - 0x80), 0x10000⟩ by
          simp only [u8Step, if_neg (by omega : ¬(2 : Nat) = 0), if_pos hb2,
            if_neg (by omega : ¬(2 : Nat) = 1)]]
        have hb3 : (0x80 : Nat) ≤ 0x80 + c.toNat % 64 ∧ 0x80 + c.toNat % 64 < 0xC0 := by
          constructor <;> omega
        have hval : (((0xF0 + c.toNat / 262144 - 0xF0) * 64 +
            (0x80 + c.toNat / 4096 % 64 - 0x80)) * 64 +
            (0x80 + c.toNat / 64 % 64 - 0x80)) * 64 + (0x80 + c.toNat % 64 - 0x80) = c.toNat := by
          omega
        have hok : ¬(c.toNat < 0x10000 ∨ (0xD800 ≤ c.toNat ∧ c.toNat < 0xE000) ∨
            0x110000 ≤ c.toNat) := by
          push_neg at hns ⊢
          refine ⟨by omega, hns, by omega⟩
        simp only [u8Step, if_neg (by omega : ¬(1 : Nat) = 0), if_pos hb3, if_pos rfl, if_true, hval,
          if_neg hok, Char.ofNat_toNat]

theorem u8Step_encode (s : List Char) (acc : List Char) :
    List.foldl u8Step (some ⟨acc, 0, 0, 0⟩) (utf8Encode s) = some ⟨s.reverse ++ acc, 0, 0, 0⟩ := by
  induction s generalizing acc with
  | nil => simp [utf8Encode]
  | cons c cs ih =>
    simp only [utf8Encode, List.map_cons, List.flatten_cons, List.foldl_append]
    rw [u8Step_encodeChar c acc]
    simp only [utf8Encode] at ih
    rw [ih (c :: acc)]
    simp

theorem utf8Decode_utf8Encode (s : List Char) : utf8Decode (utf8Encode s) = some s := by
  rw [utf8Decode, u8Step_encode s []]
  simp

theorem utf8Encode_lt (s : List Char) : ∀ b ∈ utf8Encode s, b < 256 := by
  intro b hb
  simp only [utf8Encode, List.mem_flatten, List.mem_map] at hb
  obtain ⟨l, ⟨c, hc, rfl⟩, hbl⟩ := hb
  have hvalid := isValidChar_toNat c
  have hlt : c.toNat < 0x110000 := by
    rcases hvalid with h | ⟨ha, hbb⟩ <;> omega
  unfold utf8EncodeChar at hbl
  by_cases h1 : c.toNat < 0x80
  · simp only [if_pos h1, List.mem_singleton] at hbl
    omega
  · by_cases h2 : c.toNat < 0x800
    · simp only [if_neg h1, if_pos h2, List.mem_cons, List.mem_singleton] at hbl
      rcases hbl with rfl | rfl | h
      · omega
      · omega
      · cases h
    · by_cases h3 : c.toNat < 0x10000
      · simp only [if_neg h1, if_neg h2, if_pos h3, List.mem_cons, List.mem_singleton] at hbl
        rcases hbl with rfl | rfl | rfl | h
        · omega
        · omega
        · omega
        · cases h
      · simp only [if_neg h1, if_neg h2, if_neg h3, List.mem_cons, List.mem_singleton] at hbl
        rcases hbl with rfl | rfl | rfl | rfl | h
        · omega
        · omega
        · omega
        · omega
        · cases h

theorem bytesToSextets_lt (bytes : List Nat) (hb : ∀ b ∈ bytes, b < 256) :
    ∀ v ∈ bytesToSextets bytes, v < 64 := by
  induction bytes using bytesToSextets.induct with
  | case1 x y z rest ih =>
    have hx := hb x (by simp)
    have hy := hb y (by simp)
    have hz := hb z (by simp)
    intro v hv
    simp only [bytesToSextets, List.mem_cons] at hv
    rcases hv with rfl | rfl | rfl | rfl | h
    · omega
    · omega
    · omega
    · omega
    · exact ih (fun b hbm => hb b (by simp [hbm])) v h
  | case2 x =>
    have hx := hb x (by simp)
    intro v hv
    simp only [bytesToSextets, List.mem_cons, List.mem_singleton] at hv
    rcases hv with rfl | rfl | h
    · omega
    · omega
    · cases h
  | case3 x y =>
    have hx := hb x (by simp)
    have hy := hb y (by simp)
    intro v hv
    simp only [bytesToSextets, List.mem_cons, List.mem_singleton] at hv
    rcases hv with rfl | rfl | rfl | h
    · omega
    · omega
    · omega
    · cases h
  | case4 =>
    intro v hv
    simp [bytesToSextets] at hv

theorem sextetsToBytes_bytesToSextets (bytes : List Nat) (hb : ∀ b ∈ bytes, b < 256) :
    sextetsToBytes (bytesToSextets bytes) = bytes := by
  induction bytes using bytesToSextets.induct with
  | case1 x y z rest ih =>
    have hx := hb x (by simp)
    have hy := hb y (by simp)
    have hz := hb z (by simp)
    rw [bytesToSextets, sextetsToBytes, ih (fun b hbm => hb b (by simp [hbm]))]
    congr 1
    · omega
    · congr 1
      · omega
      · congr 1
        omega
  | case2 x =>
    have hx := hb x (by simp)
    rw [bytesToSextets, sextetsToBytes]
    congr 1
    omega
  | case3 x y =>
    have hx := hb x (by simp)
    have hy := hb y (by simp)
    rw [bytesToSextets, sextetsToBytes]
    congr 1
    · omega
    · congr 1
      omega
  | case4 => rfl

theorem btoa_eq (bytes : List Nat) :
    btoa bytes = (bytesToSextets bytes).map b64Char ++
      List.replicate ((4 - (bytesToSextets bytes).length % 4) % 4) '=' := by
  induction bytes using bytesToSextets.induct with
  | case1 x y z rest ih =>
    rw [btoa, bytesToSextets, ih]
    simp only [List.map_cons, List.length_cons, List.cons_append]
    have hmod : ((bytesToSextets rest).length + 1 + 1 + 1 + 1) % 4 =
        (bytesToSextets rest).length % 4 := by
      omega
    rw [hmod]
  | case2 x => rfl
  | case3 x y => rfl
  | case4 => rfl

theorem length_bytesToSextets_mod (bytes : List Nat) :
    (bytesToSextets bytes).length % 4 ≠ 1 := by
  induction bytes using bytesToSextets.induct with
  | case1 x y z rest ih =>
    rw [bytesToSextets]
    simp only [List.length_cons]
    omega
  | case2 x =>
    rw [bytesToSextets]
    simp only [List.length_cons, List.length_nil]
    omega
  | case3 x y =>
    rw [bytesToSextets]
    simp only [List.length_cons, List.length_nil]
    omega
  | case4 =>
    rw [bytesToSextets]
    simp

theorem b64Char_ne_eq : ∀ v, v < 64 → b64Char v ≠ '=' := by
  decide

theorem b64Val_b64Char : ∀ v, v < 64 → b64Val (b64Char v) = some v := by
  decide

theorem urlToStd_stdToUrl_b64 : ∀ v, v < 64 → urlToStd (stdToUrl (b64Char v)) = b64Char v := by
  decide

theorem traverseB64_map (S : List Nat) (hv : ∀ v ∈ S, v < 64) :
    traverseB64 (S.map b64Char) = some S := by
  induction S with
  | nil => rfl
  | cons v rest ih =>
    rw [List.map_cons, traverseB64, b64Val_b64Char v (hv v (by simp)),
      ih (fun w hw => hv w (by simp [hw]))]
    rfl

theorem stdToUrl_b64_ne_eq : ∀ v, v < 64 → stdToUrl (b64Char v) ≠ '=' := by
  decide

theorem stripTrailingEq_append_replicate (X : List Char) (hX : ∀ c ∈ X, c ≠ '=') (k : Nat) :
    stripTrailingEq (X ++ List.replicate k '=') = X := by
  unfold stripTrailingEq
  rw [List.reverse_append, List.reverse_replicate]
  have hdrop : ∀ m : Nat, (List.replicate m '=' ++ X.reverse).dropWhile (· = '=') =
      X.reverse.dropWhile (· = '=') := by
    intro m
    induction m with
    | zero => simp
    | succ n ih =>
      rw [List.replicate_succ, List.cons_append, List.dropWhile_cons_of_pos (by simp)]
      exact ih
  rw [hdrop]
  have hself : X.reverse.dropWhile (· = '=') = X.reverse := by
    cases hrev : X.reverse with
    | nil => simp
    | cons y ys =>
      have hy : y ∈ X := by
        rw [← List.mem_reverse, hrev]
        simp
      rw [List.dropWhile_cons_of_neg]
      simp [hX y hy]
  rw [hself, List.reverse_reverse]

theorem b64Core_ne_eq (bytes : List Nat) (hb : ∀ b ∈ bytes, b < 256) :
    ∀ c ∈ b64Core bytes, c ≠ '=' := by
  intro c hc
  simp only [b64Core, List.mem_map] at hc
  obtain ⟨v, hv, rfl⟩ := hc
  exact b64Char_ne_eq v (bytesToSextets_lt bytes hb v hv)

theorem encodeBase64_eq (s : List Char) :
    encodeBase64 s = (b64Core (utf8Encode s)).map stdToUrl := by
  have hb := utf8Encode_lt s
  rw [encodeBase64, btoa_eq]
  rw [List.map_append]
  have hrep : (List.replicate ((4 - (bytesToSextets (utf8Encode s)).length % 4) % 4) '=').map
      stdToUrl = List.replicate ((4 - (bytesToSextets (utf8Encode s)).length % 4) % 4) '=' := by
    rw [List.map_replicate]
    rfl
  rw [hrep]
  refine stripTrailingEq_append_replicate _ ?_ _
  intro c hc
  simp only [b64Core, List.map_map, List.mem_map] at hc
  obtain ⟨v, hv, rfl⟩ := hc
  exact stdToUrl_b64_ne_eq v (bytesToSextets_lt _ hb v hv)

theorem dropTrailingEq_append_replicate (X : List Char) (hX : ∀ c ∈ X, c ≠ '=') (k : Nat)
    (hk : k ≤ 2) (hlen : (X.length + k) % 4 = 0) :
    dropTrailingEq (X ++ List.replicate k '=') = X := by
  have hlen2 : (X ++ List.replicate k '=').length % 4 = 0 := by
    simp only [List.length_append, List.length_replicate]
    exact hlen
  unfold dropTrailingEq
  rw [if_pos hlen2, List.reverse_append, List.reverse_replicate]
  interval_cases k
  · simp only [List.replicate, List.nil_append]
    cases hrev : X.reverse with
    | nil =>
      have : X = [] := by
        have := congrArg List.reverse hrev
        simpa using this
      simp [this]
    | cons y ys =>
      have hy : y ∈ X := by
        rw [← List.mem_reverse, hrev]
        simp
      have hyne : y ≠ '=' := hX y hy
      have h1 : ¬((y :: ys).take 2 = ['=', '=']) := by
        cases ys with
        | nil => simp [hyne]
        | cons z zs => simp [hyne]
      have h2 : ¬((y :: ys).take 1 = ['=']) := by
        simp [hyne]
      rw [if_neg h1, if_neg h2, List.append_nil]
  · cases hrev : X.reverse with
    | nil =>
      have hX0 : X = [] := by
        have := congrArg List.reverse hrev
        simpa using this
      subst hX0
      simp
    | cons y ys =>
      have hy : y ∈ X := by
        rw [← List.mem_reverse, hrev]
        simp
      have hyne : y ≠ '=' := hX y hy
      have h1 : ¬((List.replicate 1 '=' ++ y :: ys).take 2 = ['=', '=']) := by
        simp [List.replicate, hyne]
      rw [if_neg h1]
      rw [show (List.replicate 1 '=' ++ y :: ys).take 1 = ['='] by simp [List.replicate]]
      rw [if_pos rfl]
      have hrw : List.replicate 1 '=' ++ y :: ys = '=' :: y :: ys := by simp
      rw [hrw]
      show (y :: ys).reverse = X
      rw [← hrev, List.reverse_reverse]
  · rw [show (List.replicate 2 '=' ++ X.reverse).take 2 = ['=', '='] by
      simp [List.replicate]]
    rw [if_pos rfl]
    rw [show (List.replicate 2 '=' ++ X.reverse).drop 2 = X.reverse by
      simp [List.replicate]]
    rw [List.reverse_reverse]

theorem atob_btoa (bytes : List Nat) (hb : ∀ b ∈ bytes, b < 256) :
    atob (btoa bytes) = some bytes := by
  have hcore := b64Core_ne_eq bytes hb
  have hlenmod := length_bytesToSextets_mod bytes
  have hlenU : (b64Core bytes).length = (bytesToSextets bytes).length := by
    simp [b64Core]
  rw [btoa_eq]
  unfold atob
  have hk : (4 - (bytesToSextets bytes).length % 4) % 4 ≤ 2 := by
    omega
  have hlen : ((b64Core bytes).length + (4 - (bytesToSextets bytes).length % 4) % 4) % 4 = 0 := by
    rw [hlenU]
    omega
  rw [show (bytesToSextets bytes).map b64Char = b64Core bytes from rfl]
  rw [dropTrailingEq_append_replicate _ hcore _ hk hlen]
  rw [if_neg (by rw [hlenU]; omega)]
  rw [show b64Core bytes = (bytesToSextets bytes).map b64Char from rfl]
  rw [traverseB64_map _ (bytesToSextets_lt bytes hb)]
  simp [sextetsToBytes_bytesToSextets bytes hb]

theorem decodeBase64_encodeBase64 (s : List Char) :
    decodeBase64 (encodeBase64 s) = some s := by
  have hb := utf8Encode_lt s
  have hU : (encodeBase64 s).map urlToStd = (bytesToSextets (utf8Encode s)).map b64Char := by
    rw [encodeBase64_eq, b64Core, List.map_map, List.map_map]
    refine List.map_congr_left ?_
    intro v hv
    exact urlToStd_stdToUrl_b64 v (bytesToSextets_lt _ hb v hv)
  simp only [decodeBase64]
  rw [hU, List.length_map, ← btoa_eq, atob_btoa _ hb, Option.some_bind]
  exact utf8Decode_utf8Encode s

theorem flatten_chunkString_aux (n : Nat) : ∀ (s : List Char) (size : Nat), s.length ≤ n →
    0 < size → (chunkString s size).flatten = s := by
  induction n with
  | zero =>
    intro s size hlen hsz
    have hs : s = [] := List.length_eq_zero.mp (Nat.le_zero.mp hlen)
    simp [hs, chunkString]
  | succ n ih =>
    intro s size hlen hsz
    by_cases hs : s = []
    · simp [hs, chunkString]
    · rw [chunkString, dif_neg hs, dif_neg (by omega : ¬size = 0)]
      have hslen : s.length ≠ 0 := fun h => hs (List.length_eq_zero.mp h)
      rw [List.flatten_cons, ih (s.drop size) size ?_ hsz, List.take_append_drop]
      simp only [List.length_drop]
      omega

theorem flatten_chunkString (s : List Char) (size : Nat) (h : 0 < size) :
    (chunkString s size).flatten = s :=
  flatten_chunkString_aux s.length s size le_rfl h

theorem length_chunkString_aux (n : Nat) : ∀ (s : List Char) (size : Nat), s.length ≤ n →
    0 < size → (chunkString s size).length = (s.length + size - 1) / size := by
  induction n with
  | zero =>
    intro s size hlen hsz
    have hs : s = [] := List.length_eq_zero.mp (Nat.le_zero.mp hlen)
    subst hs
    rw [show chunkString [] size = [] by rw [chunkString, dif_pos rfl]]
    simp only [List.length_nil]
    rw [Nat.div_eq_of_lt (by omega)]
  | succ n ih =>
    intro s size hlen hsz
    by_cases hs : s = []
    · subst hs
      rw [show chunkString [] size = [] by rw [chunkString, dif_pos rfl]]
      simp only [List.length_nil]
      rw [Nat.div_eq_of_lt (by omega)]
    · rw [chunkString, dif_neg hs, dif_neg (by omega : ¬size = 0)]
      have hpos : 1 ≤ s.length := by
        cases s with
        | nil => exact absurd rfl hs
        | cons a t => simp
      simp only [List.length_cons]
      rw [ih (s.drop size) size (by simp only [List.length_drop]; omega) hsz]
      simp only [List.length_drop]
      by_cases hle : s.length ≤ size
      · have h0 : s.length - size = 0 := by omega
        rw [h0]
        rw [Nat.div_eq_of_lt (by omega : 0 + size - 1 < size)]
        rw [Nat.div_eq_of_lt_le (by omega : 1 * size ≤ s.length + size - 1)
          (by omega : s.length + size - 1 < (1 + 1) * size)]
      · have h1 : s.length - size + size - 1 = s.length - 1 := by omega
        have h2 : s.length + size - 1 = s.length - 1 + size := by omega
        rw [h1, h2, Nat.add_div_right _ hsz]

theorem length_chunkString (s : List Char) (size : Nat) (h : 0 < size) :
    (chunkString s size).length = (s.length + size - 1) / size :=
  length_chunkString_aux s.length s size le_rfl h

theorem chunkString_mem_length_aux (n : Nat) : ∀ (s : List Char) (size : Nat), s.length ≤ n →
    ∀ c ∈ chunkString s size, c.length ≤ size := by
  induction n with
  | zero =>
    intro s size hlen c hc
    have hs : s = [] := List.length_eq_zero.mp (Nat.le_zero.mp hlen)
    subst hs
    rw [show chunkString [] size = [] by rw [chunkString, dif_pos rfl]] at hc
    cases hc
  | succ n ih =>
    intro s size hlen c hc
    by_cases hs : s = []
    · subst hs
      rw [show chunkString [] size = [] by rw [chunkString, dif_pos rfl]] at hc
      cases hc
    · by_cases hz : size = 0
      · rw [chunkString, dif_neg hs, dif_pos hz] at hc
        cases hc
      · rw [chunkString, dif_neg hs, dif_neg hz] at hc
        have hslen : s.length ≠ 0 := fun h => hs (List.length_eq_zero.mp h)
        rcases List.mem_cons.mp hc with rfl | hmem
        · simp [List.length_take]
        · exact ih (s.drop size) size (by simp only [List.length_drop]; omega) c hmem

theorem chunkString_mem_length (s : List Char) (size : Nat) :
    ∀ c ∈ chunkString s size, c.length ≤ size :=
  chunkString_mem_length_aux s.length s size le_rfl

theorem jweight_pos (v : Json) : 1 ≤ jweight v := by
  cases v <;> simp [jweight] <;> omega

theorem jweightItems_pos (x : Json) (xs : List Json) : 1 ≤ jweightItems (x :: xs) := by
  simp [jweightItems]
  omega

theorem takeWhile_append_of_all (p : Char → Bool) (A B : List Char)
    (hA : ∀ a ∈ A, p a = true) : (A ++ B).takeWhile p = A ++ B.takeWhile p := by
  induction A with
  | nil => simp
  | cons a t ih =>
    rw [List.cons_append, List.takeWhile_cons_of_pos (hA a (by simp)), List.cons_append,
      ih (fun x hx => hA x (by simp [hx]))]

theorem dropWhile_append_of_all (p : Char → Bool) (A B : List Char)
    (hA : ∀ a ∈ A, p a = true) : (A ++ B).dropWhile p = B.dropWhile p := by
  induction A with
  | nil => simp
  | cons a t ih =>
    rw [List.cons_append, List.dropWhile_cons_of_pos (hA a (by simp))]
    exact ih (fun x hx => hA x (by simp [hx]))

theorem skipWs_cons_of_not_ws (c : Char) (t : List Char) (h : isJsonWs c = false) :
    skipWs (c :: t) = c :: t := by
  rw [skipWs, List.dropWhile_cons_of_neg]
  simp [h]

/-- Heads of serialized values: never whitespace and never one of the
structural closers, so the parser's lookahead decisions are unambiguous. -/
theorem stringify_head_ok (v : Json) : ∃ h t, stringify v = h :: t ∧ isJsonWs h = false ∧
    h ≠ ']' ∧ h ≠ '}' := by
  have hdigit : ∀ m : Nat, ∃ h t, natToChars m = h :: t ∧ 48 ≤ h.toNat ∧ h.toNat ≤ 57 := by
    intro m
    cases hnc : natToChars m with
    | nil => exact absurd hnc (natToChars_ne_nil m)
    | cons h t =>
      refine ⟨h, t, rfl, ?_⟩
      have := mem_natToChars_isDigit m h (by rw [hnc]; simp)
      exact this
  have hdigit_ok : ∀ (h : Char), 48 ≤ h.toNat → h.toNat ≤ 57 →
      isJsonWs h = false ∧ h ≠ ']' ∧ h ≠ '}' := by
    intro h hlo hhi
    refine ⟨?_, ?_, ?_⟩
    · simp only [isJsonWs, Bool.or_eq_false_iff, decide_eq_false_iff_not]
      refine ⟨⟨⟨fun hh => ?_, fun hh => ?_⟩, fun hh => ?_⟩, fun hh => ?_⟩ <;>
        (subst hh; revert hlo hhi; decide)
    · intro hh
      subst hh
      revert hlo hhi
      decide
    · intro hh
      subst hh
      revert hlo hhi
      decide
  cases v with
  | num n =>
    by_cases hn : n < 0
    · refine ⟨'-', natToChars n.natAbs, ?_, ?_, ?_, ?_⟩
      · simp [stringify, intToChars, hn]
      all_goals decide
    · obtain ⟨h, t, hm, hlo, hhi⟩ := hdigit n.natAbs
      obtain ⟨hw, h1, h2⟩ := hdigit_ok h hlo hhi
      refine ⟨h, t, ?_, hw, h1, h2⟩
      simp [stringify, intToChars, hn, hm]
  | bool flag =>
    rcases flag with _ | _
    · refine ⟨'f', _, rfl, ?_, ?_, ?_⟩ <;> decide
    · refine ⟨'t', _, rfl, ?_, ?_, ?_⟩ <;> decide
  | null => refine ⟨'n', _, rfl, ?_, ?_, ?_⟩ <;> decide
  | str s => refine ⟨'"', _, rfl, ?_, ?_, ?_⟩ <;> decide
  | arr xs => refine ⟨'[', _, rfl, ?_, ?_, ?_⟩ <;> decide
  | obj kvs => refine ⟨'{', _, rfl, ?_, ?_, ?_⟩ <;> decide

theorem parseHexDigit_nibbleChar : ∀ d, d < 16 → parseHexDigit (nibbleChar d) = some d := by
  decide

theorem parseStringBody_quoted (s : List Char) (rest : List Char) :
    parseStringBody ((s.map escapeChar).flatten ++ '"' :: rest) = some (s, rest) := by
  induction s with
  | nil =>
    rw [List.map_nil, List.flatten_nil, List.nil_append, parseStringBody]
    simp
  | cons c cs ih =>
    rw [List.map_cons, List.flatten_cons, List.append_assoc]
    by_cases h1 : c = '"'
    · subst h1
      rw [show escapeChar '"' = ['\\', '"'] from rfl]
      rw [List.cons_append, List.cons_append, List.nil_append, parseStringBody]
      simp only [reduceIte]
      rw [parseStringEsc]
      · rw [show escDecode '"' = some '"' from rfl]
        simp [ih]
      · intro h1 h2 h3 h4 rest1 hu
        exact absurd hu (by decide)
    · by_cases h2 : c = '\\'
      · subst h2
        rw [show escapeChar '\\' = ['\\', '\\'] from rfl]
        rw [List.cons_append, List.cons_append, List.nil_append, parseStringBody]
        simp only [reduceIte]
        rw [parseStringEsc]
        · rw [show escDecode '\\' = some '\\' from rfl]
          simp [ih]
        · intro h1 h2 h3 h4 rest1 hu
          exact absurd hu (by decide)
      · by_cases h3 : c.toNat = 8
        · rw [show escapeChar c = ['\\', 'b'] by
            rw [escapeChar, if_neg h1, if_neg h2, if_pos h3]]
          rw [List.cons_append, List.cons_append, List.nil_append, parseStringBody]
          simp only [reduceIte]
          rw [parseStringEsc]
          · rw [show escDecode 'b' = some (Char.ofNat 8) from rfl]
            have hc : Char.ofNat 8 = c := by
              rw [← h3, Char.ofNat_toNat]
            simp [ih]
            exact hc
          · intro h1 h2 h3 h4 rest1 hu
            exact absurd hu (by decide)
        · by_cases h4 : c.toNat = 9
          · rw [show escapeChar c = ['\\', 't'] by
              rw [escapeChar, if_neg h1, if_neg h2, if_neg h3, if_pos h4]]
            rw [List.cons_append, List.cons_append, List.nil_append, parseStringBody]
            simp only [reduceIte]
            rw [parseStringEsc]
            · rw [show escDecode 't' = some (Char.ofNat 9) from rfl]
              have hc : Char.ofNat 9 = c := by
                rw [← h4, Char.ofNat_toNat]
              simp [ih]
              exact hc
            · intro h1 h2 h3 h4 rest1 hu
              exact absurd hu (by decide)
          · by_cases h5 : c.toNat = 10
            · rw [show escapeChar c = ['\\', 'n'] by
                rw [escapeChar, if_neg h1, if_neg h2, if_neg h3, if_neg h4, if_pos h5]]
              rw [List.cons_append, List.cons_append, List.nil_append, parseStringBody]
              simp only [reduceIte]
              rw [parseStringEsc]
              · rw [show escDecode 'n' = some (Char.ofNat 10) from rfl]
                have hc : Char.ofNat 10 = c := by
                  rw [← h5, Char.ofNat_toNat]
                simp [ih]
                exact hc
              · intro h1 h2 h3 h4 rest1 hu
                exact absurd hu (by decide)
            · by_cases h6 : c.toNat = 12
              · rw [show escapeChar c = ['\\', 'f'] by
                  rw [escapeChar, if_neg h1, if_neg h2, if_neg h3, if_neg h4, if_neg h5,
                    if_pos h6]]
                rw [List.cons_append, List.cons_append, List.nil_append, parseStringBody]
                simp only [reduceIte]
                rw [parseStringEsc]
                · rw [show escDecode 'f' = some (Char.ofNat 12) from rfl]
                  have hc : Char.ofNat 12 = c := by
                    rw [← h6, Char.ofNat_toNat]
                  simp [ih]
                  exact hc
                · intro h1 h2 h3 h4 rest1 hu
                  exact absurd hu (by decide)
              · by_cases h7 : c.toNat = 13
                · rw [show escapeChar c = ['\\', 'r'] by
                    rw [escapeChar, if_neg h1, if_neg h2, if_neg h3, if_neg h4, if_neg h5,
                      if_neg h6, if_pos h7]]
                  rw [List.cons_append, List.cons_append, List.nil_append, parseStringBody]
                  simp only [reduceIte]
                  rw [parseStringEsc]
                  · rw [show escDecode 'r' = some (Char.ofNat 13) from rfl]
                    have hc : Char.ofNat 13 = c := by
                      rw [← h7, Char.ofNat_toNat]
                    simp [ih]
                    exact hc
                  · intro h1 h2 h3 h4 rest1 hu
                    exact absurd hu (by decide)
                · by_cases h8 : c.toNat < 32
                  · rw [show escapeChar c = ['\\', 'u', '0', '0', nibbleChar (c.toNat / 16),
                        nibbleChar (c.toNat % 16)] by
                      rw [escapeChar, if_neg h1, if_neg h2, if_neg h3, if_neg h4, if_neg h5,
                        if_neg h6, if_neg h7, if_pos h8]]
                    rw [List.cons_append, List.cons_append, List.cons_append, List.cons_append,
                      List.cons_append, List.cons_append, List.nil_append, parseStringBody]
                    simp only [reduceIte]
                    rw [parseStringEsc]
                    rw [show parseHexDigit '0' = some 0 from rfl,
                      parseHexDigit_nibbleChar (c.toNat / 16) (by omega),
                      parseHexDigit_nibbleChar (c.toNat % 16) (by omega)]
                    simp only [Option.map_some]
                    rw [if_neg (by decide : ¬('\\' = '"'))]
                    have hval : (0 : Nat) * 4096 + 0 * 256 + c.toNat / 16 * 16 + c.toNat % 16 =
                        c.toNat := by
                      omega
                    simp only [hval]
                    rw [if_neg (by omega : ¬(55296 ≤ c.toNat ∧ c.toNat < 57344))]
                    rw [Char.ofNat_toNat, ih]
                    rfl
                  · rw [show escapeChar c = [c] by
                      rw [escapeChar, if_neg h1, if_neg h2, if_neg h3, if_neg h4, if_neg h5,
                        if_neg h6, if_neg h7, if_neg h8]]
                    rw [List.cons_append, List.nil_append, parseStringBody]
                    rw [if_neg h1, if_neg h2, if_neg (by omega : ¬c.toNat < 32)]
                    simp [ih]

theorem digit_props (c : Char) (hlo : 48 ≤ c.toNat) (hhi : c.toNat ≤ 57) :
    isJsonWs c = false ∧ c ≠ 'n' ∧ c ≠ 't' ∧ c ≠ 'f' ∧ c ≠ '"' ∧ c ≠ '[' ∧ c ≠ '{' ∧
      c ≠ '-' := by
  refine ⟨?_, ?_, ?_, ?_, ?_, ?_, ?_, ?_⟩
  · simp only [isJsonWs, Bool.or_eq_false_iff, decide_eq_false_iff_not]
    refine ⟨⟨⟨fun hh => ?_, fun hh => ?_⟩, fun hh => ?_⟩, fun hh => ?_⟩ <;>
      (subst hh; revert hlo hhi; decide)
  all_goals intro hh; subst hh; revert hlo hhi; decide

theorem parseVal_default (fuel : Nat) (c : Char) (r : List Char) (hws : isJsonWs c = false)
    (hn : c ≠ 'n') (ht : c ≠ 't') (hf : c ≠ 'f') (hq : c ≠ '"') (hlb : c ≠ '[')
    (hlc : c ≠ '{') (hm : c ≠ '-') : parseVal (fuel + 1) (c :: r) = parseNum c r := by
  rw [parseVal, skipWs_cons_of_not_ws c r hws]
  split
  all_goals rename_i heq
  all_goals first
  | (simp at heq; exact absurd heq.1 (by assumption))
  | (simp at heq; done)
  | (injection heq with hc hr; subst hc; subst hr; rfl)

theorem mem_natToChars_digitCh (m : Nat) : ∀ x ∈ natToChars m, isDigitCh x = true := by
  intro x hx
  have := mem_natToChars_isDigit m x hx
  simp only [isDigitCh, Bool.and_eq_true, decide_eq_true_eq]
  omega

theorem takeWhile_digits (m : Nat) (rest : List Char) (hrest : headNotDigit rest) :
    (natToChars m ++ rest).takeWhile isDigitCh = natToChars m := by
  rw [takeWhile_append_of_all _ _ _ (mem_natToChars_digitCh m)]
  cases rest with
  | nil => simp
  | cons rc rt =>
    unfold headNotDigit at hrest
    rw [List.takeWhile_cons_of_neg (by simp [hrest])]
    simp

theorem dropWhile_digits (m : Nat) (rest : List Char) (hrest : headNotDigit rest) :
    (natToChars m ++ rest).dropWhile isDigitCh = rest := by
  rw [dropWhile_append_of_all _ _ _ (mem_natToChars_digitCh m)]
  cases rest with
  | nil => simp
  | cons rc rt =>
    unfold headNotDigit at hrest
    rw [List.dropWhile_cons_of_neg (by simp [hrest])]

theorem parseNum_digits (m : Nat) (rest : List Char) (hrest : headNotDigit rest)
    (c : Char) (t : List Char) (hm : natToChars m = c :: t) :
    parseNum c (t ++ rest) = some (.num (m : Int), rest) := by
  have hc : isDigitCh c = true := mem_natToChars_digitCh m c (by rw [hm]; simp)
  rw [parseNum, if_pos hc]
  have hsplit : c :: (t ++ rest) = natToChars m ++ rest := by
    rw [hm, List.cons_append]
  rw [hsplit, takeWhile_digits m rest hrest, dropWhile_digits m rest hrest,
    parseDigits_natToChars]

theorem parseNegNum_digits (m : Nat) (rest : List Char) (hrest : headNotDigit rest)
    (c : Char) (t : List Char) (hm : natToChars m = c :: t) :
    parseNegNum (c :: (t ++ rest)) = some (.num (-(m : Int)), rest) := by
  have hc : isDigitCh c = true := mem_natToChars_digitCh m c (by rw [hm]; simp)
  rw [parseNegNum, if_pos hc]
  have hsplit : c :: (t ++ rest) = natToChars m ++ rest := by
    rw [hm, List.cons_append]
  rw [hsplit, takeWhile_digits m rest hrest, dropWhile_digits m rest hrest,
    parseDigits_natToChars]

theorem parse_round (fuel : Nat) :
    (∀ (v : Json) (rest : List Char), jweight v ≤ fuel → headNotDigit rest →
      parseVal fuel (stringify v ++ rest) = some (v, rest)) ∧
    (∀ (xs : List Json) (rest : List Char), xs ≠ [] → jweightItems xs ≤ fuel →
      parseItems fuel (stringifyItems xs ++ ']' :: rest) = some (xs, rest)) ∧
    (∀ (kvs : List (List Char × Json)) (rest : List Char), kvs ≠ [] →
      jweightMembers kvs ≤ fuel →
      parseMembers fuel (stringifyMembers kvs ++ '}' :: rest) = some (kvs, rest)) := by
  induction fuel with
  | zero =>
    refine ⟨fun v rest hw _ => absurd hw (by have := jweight_pos v; omega),
      fun xs rest hne hw => ?_, fun kvs rest hne hw => ?_⟩
    · cases xs with
      | nil => exact absurd rfl hne
      | cons x t => exact absurd hw (by have := jweightItems_pos x t; omega)
    · cases kvs with
      | nil => exact absurd rfl hne
      | cons kv t =>
        obtain ⟨k, v⟩ := kv
        refine absurd hw ?_
        have h1 := jweight_pos v
        simp only [jweightMembers]
        omega
  | succ fuel ih =>
    obtain ⟨ihV, ihI, ihM⟩ := ih
    refine ⟨?_, ?_, ?_⟩
    · -- values
      intro v rest hw hrest
      cases v with
      | null =>
        rw [show stringify .null ++ rest = 'n' :: 'u' :: 'l' :: 'l' :: rest from rfl]
        rw [parseVal, skipWs_cons_of_not_ws _ _ (by decide)]
        simp
      | bool b =>
        cases b with
        | true =>
          rw [show stringify (.bool true) ++ rest = 't' :: 'r' :: 'u' :: 'e' :: rest from rfl]
          rw [parseVal, skipWs_cons_of_not_ws _ _ (by decide)]
          simp
        | false =>
          rw [show stringify (.bool false) ++ rest =
            'f' :: 'a' :: 'l' :: 's' :: 'e' :: rest from rfl]
          rw [parseVal, skipWs_cons_of_not_ws _ _ (by decide)]
          simp
      | num n =>
        by_cases hn : n < 0
        · cases hnc : natToChars n.natAbs with
          | nil => exact absurd hnc (natToChars_ne_nil _)
          | cons c t =>
            rw [show stringify (.num n) ++ rest = '-' :: (c :: (t ++ rest)) by
              simp [stringify, intToChars, hn, hnc]]
            rw [parseVal, skipWs_cons_of_not_ws _ _ (by decide)]
            simp only [reduceCtorEq]
            rw [show (parseNegNum (c :: (t ++ rest)) : Option (Json × List Char)) =
                some (.num (-(n.natAbs : Int)), rest) from
              parseNegNum_digits n.natAbs rest hrest c t hnc]
            have hval : -((n.natAbs : Nat) : Int) = n := by omega
            rw [hval]
        · have hstr : stringify (.num n) = natToChars n.natAbs := by
            simp [stringify, intToChars, hn]
          cases hnc : natToChars n.natAbs with
          | nil => exact absurd hnc (natToChars_ne_nil _)
          | cons c t =>
            have hd := mem_natToChars_isDigit n.natAbs c (by rw [hnc]; simp)
            obtain ⟨hws, h1, h2, h3, h4, h5, h6, h7⟩ := digit_props c hd.1 hd.2
            rw [hstr, hnc, List.cons_append,
              parseVal_default fuel c (t ++ rest) hws h1 h2 h3 h4 h5 h6 h7,
              parseNum_digits n.natAbs rest hrest c t hnc]
            have hval : ((n.natAbs : Nat) : Int) = n := by omega
            rw [hval]
      | str s =>
        rw [show stringify (.str s) ++ rest =
            '"' :: ((s.map escapeChar).flatten ++ '"' :: rest) by
          simp [stringify, quoteString]]
        rw [parseVal, skipWs_cons_of_not_ws _ _ (by decide)]
        simp [parseStringBody_quoted]
      | arr xs =>
        cases xs with
        | nil =>
          rw [show stringify (.arr []) ++ rest = '[' :: ']' :: rest by
            simp [stringify, stringifyItems]]
          rw [parseVal, skipWs_cons_of_not_ws _ _ (by decide)]
          simp only []
          rw [show skipWs (']' :: rest) = ']' :: rest from
            skipWs_cons_of_not_ws _ _ (by decide)]
          simp
        | cons x t =>
          obtain ⟨h, ht2, hhead, hw1, hne1, hne2⟩ := stringify_head_ok x
          obtain ⟨R, hR⟩ : ∃ R, stringifyItems (x :: t) ++ ']' :: rest = h :: R := by
            cases t with
            | nil =>
              refine ⟨ht2 ++ ']' :: rest, ?_⟩
              rw [show stringifyItems [x] = stringify x from rfl, hhead, List.cons_append]
            | cons y t2 =>
              refine ⟨ht2 ++ ',' :: stringifyItems (y :: t2) ++ ']' :: rest, ?_⟩
              rw [show stringifyItems (x :: y :: t2) =
                stringify x ++ ',' :: stringifyItems (y :: t2) from rfl, hhead]
              simp
          rw [show stringify (.arr (x :: t)) ++ rest =
              '[' :: (stringifyItems (x :: t) ++ ']' :: rest) by
            simp [stringify]]
          rw [parseVal, skipWs_cons_of_not_ws _ _ (by decide)]
          simp only []
          rw [show skipWs (stringifyItems (x :: t) ++ ']' :: rest) =
              stringifyItems (x :: t) ++ ']' :: rest by
            rw [hR]
            exact skipWs_cons_of_not_ws _ _ hw1]
          have harm : (match stringifyItems (x :: t) ++ ']' :: rest with
              | ']' :: r2 => some (Json.arr [], r2)
              | _ => (parseItems fuel (stringifyItems (x :: t) ++ ']' :: rest)).map
                  (fun p => (Json.arr p.1, p.2))) =
              (parseItems fuel (stringifyItems (x :: t) ++ ']' :: rest)).map
                (fun p => (Json.arr p.1, p.2)) := by
            rw [hR]
            split
            · rename_i heq
              injection heq with hc hr
              exact absurd hc hne1
            · rfl
          rw [harm]
          simp only [jweight] at hw
          rw [ihI (x :: t) rest (by simp) (by omega)]
          rfl
      | obj kvs =>
        cases kvs with
        | nil =>
          rw [show stringify (.obj []) ++ rest = '{' :: '}' :: rest by
            simp [stringify, stringifyMembers]]
          rw [parseVal, skipWs_cons_of_not_ws _ _ (by decide)]
          simp only []
          rw [show skipWs ('}' :: rest) = '}' :: rest from
            skipWs_cons_of_not_ws _ _ (by decide)]
          simp
        | cons kv t =>
          obtain ⟨k, v⟩ := kv
          obtain ⟨R, hR⟩ : ∃ R, stringifyMembers ((k, v) :: t) ++ '}' :: rest = '"' :: R := by
            cases t with
            | nil =>
              refine ⟨(k.map escapeChar).flatten ++ '"' :: ':' :: stringify v ++ '}' :: rest, ?_⟩
              rw [show stringifyMembers [(k, v)] = quoteString k ++ ':' :: stringify v from rfl,
                quoteString]
              simp
            | cons m t2 =>
              refine ⟨(k.map escapeChar).flatten ++ '"' :: ':' :: stringify v ++
                ',' :: stringifyMembers (m :: t2) ++ '}' :: rest, ?_⟩
              rw [show stringifyMembers ((k, v) :: m :: t2) =
                quoteString k ++ ':' :: stringify v ++ ',' :: stringifyMembers (m :: t2) from rfl,
                quoteString]
              simp
          rw [show stringify (.obj ((k, v) :: t)) ++ rest =
              '{' :: (stringifyMembers ((k, v) :: t) ++ '}' :: rest) by
            simp [stringify]]
          rw [parseVal, skipWs_cons_of_not_ws _ _ (by decide)]
          simp only []
          rw [show skipWs (stringifyMembers ((k, v) :: t) ++ '}' :: rest) =
              stringifyMembers ((k, v) :: t) ++ '}' :: rest by
            rw [hR]
            exact skipWs_cons_of_not_ws _ _ (by decide)]
          have harm : (match stringifyMembers ((k, v) :: t) ++ '}' :: rest with
              | '}' :: r2 => some (Json.obj [], r2)
              | _ => (parseMembers fuel (stringifyMembers ((k, v) :: t) ++ '}' :: rest)).map
                  (fun p => (Json.obj p.1, p.2))) =
              (parseMembers fuel (stringifyMembers ((k, v) :: t) ++ '}' :: rest)).map
                (fun p => (Json.obj p.1, p.2)) := by
            rw [hR]
            split
            · rename_i heq
              injection heq with hc hr
              exact absurd hc (by decide)
            · rfl
          rw [harm]
          simp only [jweight] at hw
          rw [ihM ((k, v) :: t) rest (by simp) (by omega)]
          rfl
    · -- item lists
      intro xs rest hne hw
      cases xs with
      | nil => exact absurd rfl hne
      | cons x t =>
        simp only [jweightItems] at hw
        rw [parseItems]
        cases t with
        | nil =>
          rw [show stringifyItems [x] ++ ']' :: rest = stringify x ++ ']' :: rest from rfl]
          rw [ihV x (']' :: rest) (by omega) rfl]
          simp only [Option.some_bind]
          rw [show skipWs ((x, ']' :: rest).2) = ']' :: rest from
            skipWs_cons_of_not_ws _ _ (by decide)]
          simp
        | cons y t2 =>
          rw [show stringifyItems (x :: y :: t2) ++ ']' :: rest =
              stringify x ++ (',' :: (stringifyItems (y :: t2) ++ ']' :: rest)) by
            rw [show stringifyItems (x :: y :: t2) =
              stringify x ++ ',' :: stringifyItems (y :: t2) from rfl]
            simp]
          rw [ihV x (',' :: (stringifyItems (y :: t2) ++ ']' :: rest)) (by omega)
            rfl]
          simp only [Option.some_bind]
          rw [show skipWs ((x, ',' :: (stringifyItems (y :: t2) ++ ']' :: rest)).2) =
              ',' :: (stringifyItems (y :: t2) ++ ']' :: rest) from
            skipWs_cons_of_not_ws _ _ (by decide)]
          simp only []
          rw [ihI (y :: t2) rest (by simp) (by omega)]
          rfl
    · -- member lists
      intro kvs rest hne hw
      cases kvs with
      | nil => exact absurd rfl hne
      | cons kv t =>
        obtain ⟨k, v⟩ := kv
        simp only [jweightMembers] at hw
        rw [parseMembers]
        cases t with
        | nil =>
          rw [show stringifyMembers [(k, v)] ++ '}' :: rest =
              '"' :: ((k.map escapeChar).flatten ++ '"' ::
                (':' :: (stringify v ++ '}' :: rest))) by
            rw [show stringifyMembers [(k, v)] = quoteString k ++ ':' :: stringify v from rfl,
              quoteString]
            simp]
          rw [show skipWs ('"' :: ((k.map escapeChar).flatten ++ '"' ::
              (':' :: (stringify v ++ '}' :: rest)))) =
              '"' :: ((k.map escapeChar).flatten ++ '"' ::
                (':' :: (stringify v ++ '}' :: rest))) from
            skipWs_cons_of_not_ws _ _ (by decide)]
          simp only []
          rw [parseStringBody_quoted]
          simp only [Option.some_bind]
          rw [show skipWs ((k, ':' :: (stringify v ++ '}' :: rest)).2) =
              ':' :: (stringify v ++ '}' :: rest) from
            skipWs_cons_of_not_ws _ _ (by decide)]
          simp only []
          rw [ihV v ('}' :: rest) (by omega) rfl]
          simp only [Option.some_bind]
          rw [show skipWs ((v, '}' :: rest).2) = '}' :: rest from
            skipWs_cons_of_not_ws _ _ (by decide)]
          simp
        | cons m t2 =>
          rw [show stringifyMembers ((k, v) :: m :: t2) ++ '}' :: rest =
              '"' :: ((k.map escapeChar).flatten ++ '"' ::
                (':' :: (stringify v ++ ',' :: (stringifyMembers (m :: t2) ++ '}' :: rest)))) by
            rw [show stringifyMembers ((k, v) :: m :: t2) =
              quoteString k ++ ':' :: stringify v ++ ',' :: stringifyMembers (m :: t2) from rfl,
              quoteString]
            simp]
          rw [show skipWs ('"' :: ((k.map escapeChar).flatten ++ '"' ::
              (':' :: (stringify v ++ ',' :: (stringifyMembers (m :: t2) ++ '}' :: rest))))) =
              '"' :: ((k.map escapeChar).flatten ++ '"' ::
                (':' :: (stringify v ++ ',' :: (stringifyMembers (m :: t2) ++ '}' :: rest)))) from
            skipWs_cons_of_not_ws _ _ (by decide)]
          simp only []
          rw [parseStringBody_quoted]
          simp only [Option.some_bind]
          rw [show skipWs ((k, ':' :: (stringify v ++ ',' ::
              (stringifyMembers (m :: t2) ++ '}' :: rest))).2) =
              ':' :: (stringify v ++ ',' :: (stringifyMembers (m :: t2) ++ '}' :: rest)) from
            skipWs_cons_of_not_ws _ _ (by decide)]
          simp only []
          rw [ihV v (',' :: (stringifyMembers (m :: t2) ++ '}' :: rest)) (by omega)
            rfl]
          simp only [Option.some_bind]
          rw [show skipWs ((v, ',' :: (stringifyMembers (m :: t2) ++ '}' :: rest)).2) =
              ',' :: (stringifyMembers (m :: t2) ++ '}' :: rest) from
            skipWs_cons_of_not_ws _ _ (by decide)]
          simp only []
          rw [ihM (m :: t2) rest (by simp) (by omega)]
          rfl

theorem jweight_le_aux (n : Nat) :
    (∀ v : Json, jweight v ≤ n → jweight v ≤ (stringify v).length) ∧
    (∀ xs : List Json, jweightItems xs ≤ n →
      jweightItems xs ≤ 1 + (stringifyItems xs).length) ∧
    (∀ kvs : List (List Char × Json), jweightMembers kvs ≤ n →
      jweightMembers kvs ≤ 1 + (stringifyMembers kvs).length) := by
  induction n with
  | zero =>
    refine ⟨fun v hv => absurd hv (by have := jweight_pos v; omega), fun xs hxs => ?_,
      fun kvs hkvs => ?_⟩
    · cases xs with
      | nil => simp [jweightItems]
      | cons x t => exact absurd hxs (by have := jweightItems_pos x t; omega)
    · cases kvs with
      | nil => simp [jweightMembers]
      | cons kv t =>
        obtain ⟨k, v⟩ := kv
        refine absurd hkvs ?_
        have := jweight_pos v
        simp only [jweightMembers]
        omega
  | succ n ih =>
    obtain ⟨ihV, ihI, ihM⟩ := ih
    refine ⟨?_, ?_, ?_⟩
    · intro v hv
      cases v with
      | null => simp [jweight, stringify]
      | bool b => cases b <;> simp [jweight, stringify]
      | num m =>
        have h1 : (intToChars m).length ≥ 1 := by
          by_cases hm : m < 0
          · simp [intToChars, hm]
          · simp only [intToChars, if_neg hm]
            cases hnc : natToChars m.natAbs with
            | nil => exact absurd hnc (natToChars_ne_nil _)
            | cons c t => simp
        simp only [jweight, stringify]
        omega
      | str s =>
        simp only [jweight, stringify, quoteString]
        simp
      | arr xs =>
        simp only [jweight, stringify] at hv ⊢
        have h2 := ihI xs (by omega)
        simp only [List.length_cons, List.length_append, List.length_singleton]
        omega
      | obj kvs =>
        simp only [jweight, stringify] at hv ⊢
        have h2 := ihM kvs (by omega)
        simp only [List.length_cons, List.length_append, List.length_singleton]
        omega
    · intro xs hxs
      cases xs with
      | nil => simp [jweightItems]
      | cons x t =>
        cases t with
        | nil =>
          simp only [jweightItems, stringifyItems] at hxs ⊢
          have h1 := ihV x (by omega)
          omega
        | cons y t2 =>
          simp only [jweightItems] at hxs ⊢
          have h1 := ihV x (by omega)
          have h2 := ihI (y :: t2) (by simp only [jweightItems]; omega)
          rw [show stringifyItems (x :: y :: t2) =
            stringify x ++ ',' :: stringifyItems (y :: t2) from rfl]
          simp only [List.length_append, List.length_cons]
          simp only [jweightItems] at h2
          omega
    · intro kvs hkvs
      cases kvs with
      | nil => simp [jweightMembers]
      | cons kv t =>
        obtain ⟨k, v⟩ := kv
        cases t with
        | nil =>
          simp only [jweightMembers, stringifyMembers] at hkvs ⊢
          have h1 := ihV v (by omega)
          simp only [List.length_append, List.length_cons]
          omega
        | cons m t2 =>
          obtain ⟨k2, v2⟩ := m
          simp only [jweightMembers] at hkvs ⊢
          have h1 := ihV v (by omega)
          have h2 := ihM ((k2, v2) :: t2) (by simp only [jweightMembers]; omega)
          simp only [jweightMembers] at h2
          rw [show stringifyMembers ((k, v) :: (k2, v2) :: t2) =
            quoteString k ++ ':' :: stringify v ++
              ',' :: stringifyMembers ((k2, v2) :: t2) from rfl]
          simp only [List.length_append, List.length_cons]
          omega

/-- `JSON.parse` inverts `JSON.stringify` on every JSON value. -/
theorem jsonParse_stringify (v : Json) : jsonParse (stringify v) = some v := by
  have hfuel : jweight v ≤ (stringify v).length + 1 := by
    have := (jweight_le_aux (jweight v)).1 v le_rfl
    omega
  have h1 := (parse_round ((stringify v).length + 1)).1 v [] hfuel trivial
  rw [List.append_nil] at h1
  rw [jsonParse, h1]
  rfl

theorem settledTokens_append (a b : List SEvent) :
    settledTokens (a ++ b) = settledTokens a ++ settledTokens b := by
  induction a with
  | nil => simp [settledTokens]
  | cons e es ih =>
    cases e <;> simp [settledTokens, ih]

theorem genId_injective : Function.Injective genId := natToChars_injective

theorem lookupA_singleton {α β : Type} [DecidableEq α] (l : List (α × β)) (a : α) (b : β)
    (hlen : l.length ≤ 1) (h : lookupA l a = some b) : l = [(a, b)] := by
  cases l with
  | nil => cases h
  | cons kv rest =>
    obtain ⟨k, v⟩ := kv
    cases rest with
    | cons kv2 rest2 => simp at hlen
    | nil =>
      by_cases hk : k = a
      · subst hk
        rw [lookupA, if_pos rfl] at h
        injection h with hv
        rw [hv]
      · rw [lookupA, if_neg hk] at h
        cases h

theorem processQueue_of_isSending (st : MState) (h : st.isSending = true) :
    processQueue st = st := by
  rw [processQueue, if_pos h]

theorem processQueue_of_nilQueue (st : MState) (h : st.queue = []) :
    processQueue st = st := by
  rw [processQueue]
  rw [h]
  simp

theorem processQueue_cons (st : MState) (h1 : st.isSending = false) (r : Nat)
    (rest : List Nat) (h2 : st.queue = r :: rest) :
    processQueue st = ⟨st.nextId + 1, rest, true, (genId st.nextId, r) :: st.pending,
      st.log ++ [.transmit (genId st.nextId) r]⟩ := by
  rw [processQueue, if_neg (by simp [h1]), h2]

theorem WfM_pending_nil (st : MState) (hwf : WfM st) (hs : st.isSending = false) :
    st.pending = [] := by
  obtain ⟨_, hiff, hlen⟩ := hwf
  cases hp : st.pending with
  | nil => rfl
  | cons a t =>
    cases t with
    | nil => exact absurd (hiff.mpr (by rw [hp]; rfl)) (by simp [hs])
    | cons b t2 =>
      rw [hp] at hlen
      simp at hlen

theorem handleResponse_none (id : List Char) (st : MState)
    (h : lookupA st.pending id = none) : handleResponse id st = st := by
  rw [handleResponse, h]

theorem handleResponse_some (id : List Char) (st : MState) (r : Nat)
    (h : lookupA st.pending id = some r) :
    handleResponse id st =
      (let st1 := processQueue { st with
        log := st.log ++ [.settledOk r]
        isSending := false }
      { st1 with pending := eraseA st1.pending id }) := by
  rw [handleResponse, h]

theorem timeoutFired_none (id : List Char) (st : MState)
    (h : lookupA st.pending id = none) : timeoutFired id st = st := by
  rw [timeoutFired, h]

theorem timeoutFired_some (id : List Char) (st : MState) (r : Nat)
    (h : lookupA st.pending id = some r) :
    timeoutFired id st = processQueue { st with
      pending := eraseA st.pending id
      log := st.log ++ [.settledTimeout r]
      isSending := false } := by
  rw [timeoutFired, h]

theorem applyStep_send (r : Nat) (st : MState) (hwf : WfM st) :
    WfM (sendMessage r st) ∧ acct (sendMessage r st) = acct st ++ [r] := by
  obtain ⟨hids, hiff, hlen⟩ := hwf
  rw [sendMessage]
  by_cases hs : st.isSending = true
  · rw [processQueue_of_isSending _ (by simp [hs])]
    refine ⟨⟨by simpa using hids, by simpa using hiff, by simpa using hlen⟩, ?_⟩
    simp [acct, pendingTokens]
  · have hs' : st.isSending = false := by
      cases hb : st.isSending
      · rfl
      · exact absurd hb hs
    have hpend : st.pending = [] := WfM_pending_nil st ⟨hids, hiff, hlen⟩ hs'
    cases hq : st.queue ++ [r] with
    | nil => simp at hq
    | cons q0 rest0 =>
      rw [processQueue_cons _ (by simp [hs']) q0 rest0 (by simp [hq])]
      constructor
      · refine ⟨?_, by simp [hpend], by simp [hpend]⟩
        intro p hp
        simp [hpend] at hp
        subst hp
        refine ⟨st.nextId, ?_, by simp⟩
        simp
      · simp only [acct, pendingTokens]
        simp only [settledTokens_append, settledTokens]
        simp [hpend, hq]

theorem applyStep_response (id : List Char) (st : MState) (hwf : WfM st) :
    WfM (handleResponse id st) ∧ acct (handleResponse id st) = acct st := by
  obtain ⟨hids, hiff, hlen⟩ := hwf
  cases hl : lookupA st.pending id with
  | none =>
    rw [handleResponse_none id st hl]
    exact ⟨⟨hids, hiff, hlen⟩, rfl⟩
  | some r =>
    rw [handleResponse_some id st r hl]
    have hsingle : st.pending = [(id, r)] := lookupA_singleton st.pending id r hlen hl
    obtain ⟨k, hk, hid⟩ : ∃ k, k < st.nextId ∧ id = genId k :=
      hids (id, r) (by rw [hsingle]; simp)
    by_cases hq : st.queue = []
    · rw [processQueue_of_nilQueue _ (by simp [hq])]
      refine ⟨⟨?_, by simp [eraseA, hsingle], by simp [eraseA, hsingle]⟩, ?_⟩
      · intro p hp
        simp [hsingle, eraseA] at hp
      · simp only [acct, pendingTokens]
        simp only [settledTokens_append, settledTokens]
        simp [hsingle, eraseA, hq]
    · cases hqc : st.queue with
      | nil => exact absurd hqc hq
      | cons q0 rest0 =>
        rw [processQueue_cons _ (by simp) q0 rest0 (by simp [hqc])]
        have hne : genId st.nextId ≠ id := by
          rw [hid]
          intro he
          have := genId_injective he
          omega
        constructor
        · refine ⟨?_, ?_, ?_⟩
          · intro p hp
            simp only [hsingle] at hp
            simp only [eraseA, if_neg hne] at hp
            simp only [List.mem_cons] at hp
            rcases hp with rfl | hp
            · refine ⟨st.nextId, ?_, by simp⟩
              simp
            · simp [eraseA] at hp
          · simp [hsingle, eraseA, hne]
          · simp [hsingle, eraseA, hne]
        · simp only [acct, pendingTokens]
          simp only [settledTokens_append, settledTokens]
          simp [hsingle, eraseA, hne, hqc]

theorem applyStep_timeout (id : List Char) (st : MState) (hwf : WfM st) :
    WfM (timeoutFired id st) ∧ acct (timeoutFired id st) = acct st := by
  obtain ⟨hids, hiff, hlen⟩ := hwf
  cases hl : lookupA st.pending id with
  | none =>
    rw [timeoutFired_none id st hl]
    exact ⟨⟨hids, hiff, hlen⟩, rfl⟩
  | some r =>
    rw [timeoutFired_some id st r hl]
    have hsingle : st.pending = [(id, r)] := lookupA_singleton st.pending id r hlen hl
    by_cases hq : st.queue = []
    · rw [processQueue_of_nilQueue _ (by simp [hq])]
      refine ⟨⟨?_, by simp [eraseA, hsingle], by simp [eraseA, hsingle]⟩, ?_⟩
      · intro p hp
        simp [hsingle, eraseA] at hp
      · simp only [acct, pendingTokens]
        simp only [settledTokens_append, settledTokens]
        simp [hsingle, eraseA, hq]
    · cases hqc : st.queue with
      | nil => exact absurd hqc hq
      | cons q0 rest0 =>
        rw [processQueue_cons _ (by simp) q0 rest0 (by simp [hqc])]
        constructor
        · refine ⟨?_, ?_, ?_⟩
          · intro p hp
            simp only [hsingle] at hp
            simp only [eraseA, if_pos rfl, if_true] at hp
            simp only [List.mem_cons] at hp
            rcases hp with rfl | hp
            · refine ⟨st.nextId, ?_, by simp⟩
              simp
            · simp at hp
          · simp [hsingle, eraseA]
          · simp [hsingle, eraseA]
        · simp only [acct, pendingTokens]
          simp only [settledTokens_append, settledTokens]
          simp [hsingle, eraseA, hqc]

theorem applyStep_inv (e : MStep) (st : MState) (hwf : WfM st) :
    WfM (applyStep e st) ∧
      acct (applyStep e st) = acct st ++ submittedTokens [e] := by
  cases e with
  | send r =>
    obtain ⟨h1, h2⟩ := applyStep_send r st hwf
    exact ⟨h1, by simpa [submittedTokens] using h2⟩
  | response id =>
    obtain ⟨h1, h2⟩ := applyStep_response id st hwf
    exact ⟨h1, by simpa [submittedTokens] using h2⟩
  | timeout id =>
    obtain ⟨h1, h2⟩ := applyStep_timeout id st hwf
    exact ⟨h1, by simpa [submittedTokens] using h2⟩

theorem submittedTokens_cons (e : MStep) (es : List MStep) :
    submittedTokens (e :: es) = submittedTokens [e] ++ submittedTokens es := by
  cases e <;> simp [submittedTokens]

theorem run_inv_aux (ss : List MStep) : ∀ st : MState, WfM st →
    WfM (run st ss) ∧ acct (run st ss) = acct st ++ submittedTokens ss := by
  induction ss with
  | nil =>
    intro st h
    exact ⟨h, by simp [run, submittedTokens]⟩
  | cons e es ih =>
    intro st h
    obtain ⟨h1, h2⟩ := applyStep_inv e st h
    obtain ⟨h3, h4⟩ := ih (applyStep e st) h1
    refine ⟨h3, ?_⟩
    rw [run, h4, h2, submittedTokens_cons, List.append_assoc]
    congr 1
    cases e <;> simp [submittedTokens]

theorem initM_wf : WfM initM := by
  refine ⟨?_, ?_, ?_⟩ <;> simp [initM, WfM]

theorem run_invariant (ss : List MStep) :
    WfM (run initM ss) ∧ acct (run initM ss) = submittedTokens ss := by
  obtain ⟨h1, h2⟩ := run_inv_aux ss initM initM_wf
  refine ⟨h1, ?_⟩
  rw [h2]
  simp [acct, initM, settledTokens, pendingTokens]

/-- **C1.**  For every JSON-serializable message `M` and every positive
chunk size `S` smaller than the length of the encoded form of `M`,
splitting the transport encoding of `M` into chunks of size `S`,
concatenating the chunks in index order, reversing the transport
encoding (base64url decode), and deserializing reconstructs `M`
exactly. -/
theorem C1_codec_roundtrip (m : Json) (S : Nat) (h1 : 0 < S)
    (h2 : S < (encodeMessage m).length) :
    decodeMessage (chunkString (encodeMessage m) S) = some m := by
  rw [decodeMessage, flatten_chunkString _ _ h1, encodeMessage, decodeBase64_encodeBase64,
    Option.some_bind, jsonParse_stringify]

theorem C1_codec_roundtrip_witness :
    (0 < 1 ∧ 1 < (encodeMessage Json.null).length) ∧
      decodeMessage (chunkString (encodeMessage Json.null) 1) = some Json.null :=
  ⟨⟨by decide, by decide⟩, C1_codec_roundtrip Json.null 1 (by decide) (by decide)⟩

/-- **C5 counterexample.**  The empty encoded payload yields zero chunks,
not a minimum of one: `chunkString('', 4000 - 120)` is `[]`, so its
chunk count is `0`. -/
theorem C5_counterexample :
    ¬(1 ≤ (chunkString [] (MAX_HASH_BYTES - OVERHEAD)).length) := by
  rw [chunkString, dif_pos rfl]
  simp

/-- **C5 (amended).**  For every payload string, the encoder splits it
into chunks each of length at most `MAX_HASH_BYTES - OVERHEAD`
(4000 − 120), in order (concatenating the chunks restores the payload),
with the chunk count equal to `⌈length / chunkSize⌉` — which is `0`, not
`1`, for the empty encoded payload. -/
theorem C5_chunking (s : List Char) :
    (∀ c ∈ chunkString s (MAX_HASH_BYTES - OVERHEAD),
      c.length ≤ MAX_HASH_BYTES - OVERHEAD) ∧
    (chunkString s (MAX_HASH_BYTES - OVERHEAD)).flatten = s ∧
    (chunkString s (MAX_HASH_BYTES - OVERHEAD)).length =
      (s.length + (MAX_HASH_BYTES - OVERHEAD) - 1) / (MAX_HASH_BYTES - OVERHEAD) :=
  ⟨chunkString_mem_length s _, flatten_chunkString s _ (by decide),
    length_chunkString s _ (by decide)⟩

theorem colonFree_append_inj (a : List Char) : ∀ (b x y : List Char), ':' ∉ a → ':' ∉ b →
    a ++ ':' :: x = b ++ ':' :: y → a = b ∧ x = y := by
  induction a with
  | nil =>
    intro b x y _ hb h
    cases b with
    | nil =>
      simp only [List.nil_append] at h
      injection h with h1 h2
      exact ⟨rfl, h2⟩
    | cons d u =>
      simp only [List.nil_append, List.cons_append] at h
      injection h with h1 h2
      exact absurd (show ':' ∈ d :: u by rw [← h1]; exact List.mem_cons_self ':' u) hb
  | cons c t ih =>
    intro b x y ha hb h
    cases b with
    | nil =>
      simp only [List.cons_append, List.nil_append] at h
      injection h with h1 h2
      exact absurd (List.mem_cons_self c t) (h1 ▸ ha)
    | cons d u =>
      simp only [List.cons_append] at h
      injection h with h1 h2
      obtain ⟨hbu, hxy⟩ := ih u x y (fun hm => ha (List.mem_cons_of_mem c hm))
        (fun hm => hb (List.mem_cons_of_mem d hm)) h2
      exact ⟨by rw [h1, hbu], hxy⟩

theorem ackString_inj (id1 id2 : List Char) (n1 n2 : Int) (h1 : ':' ∉ id1) (h2 : ':' ∉ id2)
    (h : ackString id1 n1 = ackString id2 n2) : id1 = id2 ∧ n1 = n2 := by
  simp only [ackString] at h
  have h4 : id1 ++ ':' :: intToChars n1 = id2 ++ ':' :: intToChars n2 := by
    have := h
    simp only [List.append_cancel_left_eq] at this
    exact this
  obtain ⟨hid, hrest⟩ := colonFree_append_inj id1 id2 (intToChars n1) (intToChars n2) h1 h2 h4
  exact ⟨hid, intToChars_injective hrest⟩

/-- **C3.**  During one message's chunk transmission, chunk `k+1` is only
ever written in the step that observes the acknowledgment frame carrying
this message's id and index `k = index − 1` (stop-and-wait, window 1):
any other observed value — in particular an acknowledgment whose id or
index differs from the just-sent chunk's — causes no state change and
sends nothing. -/
theorem C3_ack_gating (ty : FrameType) (id : List Char) (chunks : List (List Char))
    (st : SendState) (h : List Char) (id2 : List Char) (k : Int)
    (hcf : ':' ∉ id) (hcf2 : ':' ∉ id2)
    (hmismatch : id2 ≠ id ∨ k ≠ (st.index : Int) - 1) :
    (∀ h2, h2 ≠ ackString id ((st.index : Int) - 1) →
      onUpdated ty id chunks st h2 = (st, none)) ∧
    (∀ st2 e, onUpdated ty id chunks st h = (st2, some e) →
      h = ackString id ((st.index : Int) - 1) ∧ st.index < chunks.length ∧
      e = msgString ty id st.index chunks.length (chunkAt chunks st.index) ∧
      st2 = { st with index := st.index + 1 }) ∧
    onUpdated ty id chunks st (ackString id2 k) = (st, none) := by
  have hne : ackString id2 k ≠ ackString id ((st.index : Int) - 1) := by
    intro he
    obtain ⟨hid, hk⟩ := ackString_inj id2 id k ((st.index : Int) - 1) hcf2 hcf he
    rcases hmismatch with hm | hm
    · exact hm hid
    · exact hm hk
  refine ⟨?_, ?_, ?_⟩
  · intro h2 hne2
    rw [onUpdated]
    by_cases hd : st.done
    · rw [if_pos hd]
    · rw [if_neg hd, if_neg hne2]
  · intro st2 e he
    rw [onUpdated] at he
    by_cases hd : st.done
    · rw [if_pos hd] at he
      injection he with _ he2
      cases he2
    · rw [if_neg hd] at he
      by_cases hh : h = ackString id ((st.index : Int) - 1)
      · rw [if_pos hh] at he
        by_cases hlt : st.index < chunks.length
        · rw [if_pos hlt] at he
          injection he with he1 he2
          injection he2 with he2
          exact ⟨hh, hlt, he2.symm, he1.symm⟩
        · rw [if_neg hlt] at he
          injection he with _ he2
          cases he2
      · rw [if_neg hh] at he
        injection he with _ he2
        cases he2
  · rw [onUpdated]
    by_cases hd : st.done
    · rw [if_pos hd]
    · rw [if_neg hd, if_neg hne]

theorem C3_ack_gating_witness :
    (':' ∉ (['a'] : List Char)) ∧ (':' ∉ (['b'] : List Char)) ∧
    ((['b'] : List Char) ≠ ['a'] ∨ (0 : Int) ≠ ((1 : Nat) : Int) - 1) ∧
    ((∀ h2, h2 ≠ ackString ['a'] (((⟨1, false⟩ : SendState).index : Int) - 1) →
      onUpdated .req ['a'] [['x'], ['y']] ⟨1, false⟩ h2 = (⟨1, false⟩, none)) ∧
    (∀ st2 e, onUpdated .req ['a'] [['x'], ['y']] ⟨1, false⟩
        (ackString ['a'] (((⟨1, false⟩ : SendState).index : Int) - 1)) = (st2, some e) →
      ackString ['a'] (((⟨1, false⟩ : SendState).index : Int) - 1) =
          ackString ['a'] (((⟨1, false⟩ : SendState).index : Int) - 1) ∧
        (⟨1, false⟩ : SendState).index < ([['x'], ['y']] : List (List Char)).length ∧
        e = msgString .req ['a'] (⟨1, false⟩ : SendState).index
          ([['x'], ['y']] : List (List Char)).length
          (chunkAt [['x'], ['y']] (⟨1, false⟩ : SendState).index) ∧
        st2 = { (⟨1, false⟩ : SendState) with index := (⟨1, false⟩ : SendState).index + 1 }) ∧
    onUpdated .req ['a'] [['x'], ['y']] ⟨1, false⟩ (ackString ['b'] 0) = (⟨1, false⟩, none)) :=
  ⟨by decide, by decide, Or.inl (by decide),
    C3_ack_gating .req ['a'] [['x'], ['y']] ⟨1, false⟩
      (ackString ['a'] (((⟨1, false⟩ : SendState).index : Int) - 1)) ['b'] 0
      (by decide) (by decide) (Or.inl (by decide))⟩

/-- **C2.**  Single flight and FIFO: a `send` issued while a request is
pending only enqueues — no chunk transmission starts (`processQueue`
returns at the `isSending` guard); on every reachable state `isSending`
holds exactly when one request is in flight; and the settled (resolved
or timed-out) tokens always form a prefix of the submission order, so
requests settle strictly in FIFO submission order. -/
theorem C2_single_flight_fifo (st : MState) (r : Nat) (ss : List MStep)
    (h : st.isSending = true) :
    sendMessage r st = { st with queue := st.queue ++ [r] } ∧
    ((run initM ss).isSending = true ↔ (run initM ss).pending.length = 1) ∧
    (∃ t, submittedTokens ss = settledTokens (run initM ss).log ++ t) := by
  refine ⟨?_, ?_, ?_⟩
  · rw [sendMessage, processQueue_of_isSending _ (by simp [h])]
  · exact (run_invariant ss).1.2.1
  · refine ⟨pendingTokens (run initM ss) ++ (run initM ss).queue, ?_⟩
    have hacct := (run_invariant ss).2
    rw [← hacct, acct, List.append_assoc]

theorem C2_single_flight_fifo_witness :
    ((⟨0, [], true, [], []⟩ : MState).isSending = true) ∧
    (sendMessage 7 ⟨0, [], true, [], []⟩ =
      { (⟨0, [], true, [], []⟩ : MState) with
        queue := (⟨0, [], true, [], []⟩ : MState).queue ++ [7] } ∧
    ((run initM [.send 1, .send 2, .response (genId 0)]).isSending = true ↔
      (run initM [.send 1, .send 2, .response (genId 0)]).pending.length = 1) ∧
    (∃ t, submittedTokens [.send 1, .send 2, .response (genId 0)] =
      settledTokens (run initM [.send 1, .send 2, .response (genId 0)]).log ++ t)) :=
  ⟨rfl, C2_single_flight_fifo ⟨0, [], true, [], []⟩ 7
    [.send 1, .send 2, .response (genId 0)] rfl⟩

/-- **C4.**  If the 30-second timeout fires while the pending entry for
its id is still present, the entry is removed, the caller is rejected
with `Timeout`, the in-flight flag is cleared, and — when further
requests are queued — the next one is dequeued and its transmission
starts. -/
theorem C4_timeout (st : MState) (id : List Char) (r : Nat) (hwf : WfM st)
    (h : lookupA st.pending id = some r) :
    lookupA (timeoutFired id st).pending id = none ∧
    (st.queue = [] →
      (timeoutFired id st).pending = eraseA st.pending id ∧
      (timeoutFired id st).log = st.log ++ [.settledTimeout r] ∧
      (timeoutFired id st).isSending = false ∧
      (timeoutFired id st).queue = []) ∧
    (∀ q0 rest0, st.queue = q0 :: rest0 →
      (timeoutFired id st).queue = rest0 ∧ (timeoutFired id st).isSending = true ∧
      (timeoutFired id st).log =
        st.log ++ [.settledTimeout r, .transmit (genId st.nextId) q0]) := by
  have hsingle : st.pending = [(id, r)] := lookupA_singleton st.pending id r hwf.2.2 h
  obtain ⟨k, hk, hid⟩ := hwf.1 (id, r) (by rw [hsingle]; simp)
  have hid2 : id = genId k := hid
  rw [timeoutFired_some id st r h]
  by_cases hq : st.queue = []
  · rw [processQueue_of_nilQueue _ (by simpa using hq)]
    refine ⟨?_, fun _ => ⟨rfl, rfl, rfl, by simpa using hq⟩, ?_⟩
    · simp [hsingle, eraseA, lookupA]
    · intro q0 rest0 hq0
      exact absurd (hq0.symm.trans hq) (by simp)
  · cases hqc : st.queue with
    | nil => exact absurd hqc hq
    | cons q0 rest0 =>
      rw [processQueue_cons _ (by simp) q0 rest0 (by simp [hqc])]
      have hne : genId st.nextId ≠ id := by
        rw [hid2]
        intro he
        have := genId_injective he
        omega
      refine ⟨?_, ?_, ?_⟩
      · simp only [hsingle, eraseA, if_pos rfl, if_true]
        simp [lookupA, hne]
      · intro hq0
        exact absurd hq0 (by simp)
      · intro q0' rest0' hq0
        injection hq0 with hq1 hq2
        subst hq1
        subst hq2
        exact ⟨rfl, rfl, by simp⟩

theorem C4_timeout_witness :
    WfM ⟨1, [5], true, [(genId 0, 9)], []⟩ ∧
    lookupA (⟨1, [5], true, [(genId 0, 9)], []⟩ : MState).pending (genId 0) = some 9 ∧
    (lookupA (timeoutFired (genId 0) ⟨1, [5], true, [(genId 0, 9)], []⟩).pending (genId 0) =
        none ∧
      ((⟨1, [5], true, [(genId 0, 9)], []⟩ : MState).queue = [] →
        (timeoutFired (genId 0) ⟨1, [5], true, [(genId 0, 9)], []⟩).pending =
          eraseA (⟨1, [5], true, [(genId 0, 9)], []⟩ : MState).pending (genId 0) ∧
        (timeoutFired (genId 0) ⟨1, [5], true, [(genId 0, 9)], []⟩).log =
          (⟨1, [5], true, [(genId 0, 9)], []⟩ : MState).log ++ [.settledTimeout 9] ∧
        (timeoutFired (genId 0) ⟨1, [5], true, [(genId 0, 9)], []⟩).isSending = false ∧
        (timeoutFired (genId 0) ⟨1, [5], true, [(genId 0, 9)], []⟩).queue = []) ∧
      (∀ q0 rest0, (⟨1, [5], true, [(genId 0, 9)], []⟩ : MState).queue = q0 :: rest0 →
        (timeoutFired (genId 0) ⟨1, [5], true, [(genId 0, 9)], []⟩).queue = rest0 ∧
        (timeoutFired (genId 0) ⟨1, [5], true, [(genId 0, 9)], []⟩).isSending = true ∧
        (timeoutFired (genId 0) ⟨1, [5], true, [(genId 0, 9)], []⟩).log =
          (⟨1, [5], true, [(genId 0, 9)], []⟩ : MState).log ++
            [.settledTimeout 9, .transmit (genId 1) q0])) := by
  have hwf : WfM ⟨1, [5], true, [(genId 0, 9)], []⟩ := by
    refine ⟨?_, by simp, by simp⟩
    intro p hp
    simp at hp
    subst hp
    exact ⟨0, by decide, rfl⟩
  exact ⟨hwf, rfl, C4_timeout ⟨1, [5], true, [(genId 0, 9)], []⟩ (genId 0) 9 hwf rfl⟩

/-- **C10.**  Once a request has been resolved by an arriving response
(which removes its pending entry), the later firing of its timer is a
complete no-op — the state is unchanged, so the caller is not rejected,
the in-flight flag is not cleared again and the queue is not re-driven —
and the request settles exactly once. -/
theorem C10_settle_once (st : MState) (id : List Char) (r : Nat) (hwf : WfM st)
    (h : lookupA st.pending id = some r) (hcount : countSettled r st.log = 0) :
    timeoutFired id (handleResponse id st) = handleResponse id st ∧
    countSettled r (handleResponse id st).log = 1 ∧
    countSettled r (timeoutFired id (handleResponse id st)).log = 1 := by
  have hsingle : st.pending = [(id, r)] := lookupA_singleton st.pending id r hwf.2.2 h
  obtain ⟨k, hk, hid⟩ := hwf.1 (id, r) (by rw [hsingle]; simp)
  have hid2 : id = genId k := hid
  have hremoved : lookupA (handleResponse id st).pending id = none := by
    rw [handleResponse_some id st r h]
    by_cases hq : st.queue = []
    · rw [processQueue_of_nilQueue _ (by simpa using hq)]
      simp [hsingle, eraseA, lookupA]
    · cases hqc : st.queue with
      | nil => exact absurd hqc hq
      | cons q0 rest0 =>
        rw [processQueue_cons _ (by simp) q0 rest0 (by simp [hqc])]
        have hne : genId st.nextId ≠ id := by
          rw [hid2]
          intro he
          have := genId_injective he
          omega
        simp only [hsingle, eraseA, if_neg hne, if_pos rfl, if_true]
        simp [lookupA, hne]
  have hlog : settledTokens (handleResponse id st).log = settledTokens st.log ++ [r] := by
    rw [handleResponse_some id st r h]
    by_cases hq : st.queue = []
    · rw [processQueue_of_nilQueue _ (by simpa using hq)]
      simp [settledTokens_append, settledTokens]
    · cases hqc : st.queue with
      | nil => exact absurd hqc hq
      | cons q0 rest0 =>
        rw [processQueue_cons _ (by simp) q0 rest0 (by simp [hqc])]
        simp only []
        rw [List.append_assoc, settledTokens_append, settledTokens_append]
        simp [settledTokens]
  have hnoop : timeoutFired id (handleResponse id st) = handleResponse id st :=
    timeoutFired_none id (handleResponse id st) hremoved
  refine ⟨hnoop, ?_, ?_⟩
  · rw [countSettled, hlog]
    simp only [List.count_append]
    rw [countSettled] at hcount
    rw [hcount]
    simp
  · rw [hnoop, countSettled, hlog]
    simp only [List.count_append]
    rw [countSettled] at hcount
    rw [hcount]
    simp

theorem C10_settle_once_witness :
    WfM ⟨1, [], true, [(genId 0, 9)], []⟩ ∧
    lookupA (⟨1, [], true, [(genId 0, 9)], []⟩ : MState).pending (genId 0) = some 9 ∧
    countSettled 9 (⟨1, [], true, [(genId 0, 9)], []⟩ : MState).log = 0 ∧
    (timeoutFired (genId 0) (handleResponse (genId 0) ⟨1, [], true, [(genId 0, 9)], []⟩) =
        handleResponse (genId 0) ⟨1, [], true, [(genId 0, 9)], []⟩ ∧
      countSettled 9 (handleResponse (genId 0) ⟨1, [], true, [(genId 0, 9)], []⟩).log = 1 ∧
      countSettled 9 (timeoutFired (genId 0)
        (handleResponse (genId 0) ⟨1, [], true, [(genId 0, 9)], []⟩)).log = 1) := by
  have hwf : WfM ⟨1, [], true, [(genId 0, 9)], []⟩ := by
    refine ⟨?_, by simp, by simp⟩
    intro p hp
    simp at hp
    subst hp
    exact ⟨0, by decide, rfl⟩
  exact ⟨hwf, rfl, rfl,
    C10_settle_once ⟨1, [], true, [(genId 0, 9)], []⟩ (genId 0) 9 hwf rfl rfl⟩

/-- **C6 counterexample.**  A later chunk whose `total` differs from the
first chunk's is **not** treated as a protocol violation: after chunk
`0/2` of id `a`, processing chunk `1/3` of the same id leaves the entry
in place with the new chunk silently written into it, and the call
returns normally. -/
theorem C6_counterexample :
    lookupA (onChunkBG (onChunkBG ⟨initM, []⟩ .req ['a'] 0 2 ['x']).1
        .req ['a'] 1 3 ['y']).1.buffers ['a'] =
      some ⟨2, [(0, ['x']), (1, ['y'])]⟩ ∧
    (onChunkBG (onChunkBG ⟨initM, []⟩ .req ['a'] 0 2 ['x']).1
        .req ['a'] 1 3 ['y']).2.2 = .ok := by
  constructor <;> rfl

/-- **C6 (amended).**  When a chunk arrives for an id that already has a
reassembly entry, the chunk is silently written into the existing entry
(whose slot array keeps the size fixed by the first chunk); no violation
is raised and the entry is not discarded — even when this chunk's
`total` differs from the entry's — as long as the write does not
complete the buffer under the **current** frame's `total` (the code
compares the filled count against the current frame's `total`, not the
first one's). -/
theorem C6_total_mismatch (st : BgState) (ty : FrameType) (id : List Char)
    (index total : Nat) (data : List Char) (b : JsBuffer)
    (hb : lookupA st.buffers id = some b)
    (hnc : filledCount (setSlot b index data) ≠ total) :
    onChunkBG st ty id index total data =
      ({ st with buffers := setA st.buffers id (setSlot b index data) },
        [.ack id index], .ok) := by
  rw [onChunkBG]
  simp only [hb, Option.isSome_some, if_true, Option.getD_some, if_neg hnc]

theorem C6_total_mismatch_witness :
    lookupA [(['a'], (⟨2, [(0, ['x'])]⟩ : JsBuffer))] ['a'] = some ⟨2, [(0, ['x'])]⟩ ∧
    filledCount (setSlot ⟨2, [(0, ['x'])]⟩ 1 ['y']) ≠ 3 ∧
    onChunkBG ⟨initM, [(['a'], ⟨2, [(0, ['x'])]⟩)]⟩ .req ['a'] 1 3 ['y'] =
      ({ (⟨initM, [(['a'], ⟨2, [(0, ['x'])]⟩)]⟩ : BgState) with
          buffers := setA [(['a'], ⟨2, [(0, ['x'])]⟩)] ['a'] (setSlot ⟨2, [(0, ['x'])]⟩ 1 ['y']) },
        [.ack ['a'] 1], .ok) :=
  ⟨rfl, by decide,
    C6_total_mismatch ⟨initM, [(['a'], ⟨2, [(0, ['x'])]⟩)]⟩ .req ['a'] 1 3 ['y']
      ⟨2, [(0, ['x'])]⟩ rfl (by decide)⟩

/-- **C7 counterexample.**  When a reassembly entry becomes complete but
the reassembled text fails to decode, the entry is **not** removed and
the failure is not contained: `JSON.parse(decodeBase64(full))` throws
before `incomingBuffers.delete(id)` is reached, so the single chunk
`0/1` of id `a` carrying the non-base64 text `!` leaves the completed
entry resident and the exception propagates. -/
theorem C7_counterexample :
    (onChunkBG ⟨initM, []⟩ .req ['a'] 0 1 ['!']).2.2 = .threw ∧
    lookupA (onChunkBG ⟨initM, []⟩ .req ['a'] 0 1 ['!']).1.buffers ['a'] =
      some ⟨1, [(0, ['!'])]⟩ := by
  constructor <;> rfl

theorem mem_keys_setA {α β : Type} [DecidableEq α] (l : List (α × β)) (a c : α) (b : β) :
    c ∈ (setA l a b).map Prod.fst → c ∈ l.map Prod.fst ∨ c = a := by
  induction l with
  | nil =>
    intro h
    simp [setA] at h
    exact Or.inr h
  | cons kv rest ih =>
    obtain ⟨k, v⟩ := kv
    intro h
    by_cases hk : k = a
    · subst hk
      simp only [setA, if_pos rfl, if_true, List.map_cons, List.mem_cons] at h ⊢
      rcases h with rfl | h
      · exact Or.inl (Or.inl rfl)
      · exact Or.inl (Or.inr h)
    · simp only [setA, if_neg hk, List.map_cons, List.mem_cons] at h ⊢
      rcases h with rfl | h
      · exact Or.inl (Or.inl rfl)
      · rcases ih h with h1 | h1
        · exact Or.inl (Or.inr h1)
        · exact Or.inr h1

theorem nodup_setA_keys {α β : Type} [DecidableEq α] (l : List (α × β)) (a : α) (b : β)
    (h : (l.map Prod.fst).Nodup) : ((setA l a b).map Prod.fst).Nodup := by
  induction l with
  | nil => simp [setA]
  | cons kv rest ih =>
    obtain ⟨k, v⟩ := kv
    simp only [List.map_cons, List.nodup_cons] at h
    by_cases hk : k = a
    · subst hk
      simp only [setA, if_pos rfl, if_true, List.map_cons, List.nodup_cons]
      exact h
    · simp only [setA, if_neg hk, List.map_cons, List.nodup_cons]
      refine ⟨?_, ih h.2⟩
      intro hm
      rcases mem_keys_setA rest a k b hm with h1 | h1
      · exact h.1 h1
      · exact hk h1

/-- **C7 (amended).**  When a reassembly entry becomes complete (filled
count equal to the current frame's `total`): if the reassembled text
decodes, the entry is removed and the message is dispatched or resolved;
if decoding fails, the exception propagates (`Outcome.threw`), nothing
is dispatched, and the completed entry remains resident.  In both cases
entries of other message ids are untouched. -/
theorem C7_completion (st : BgState) (ty : FrameType) (id : List Char)
    (index total : Nat) (data : List Char) (b : JsBuffer)
    (hb : lookupA st.buffers id = some b)
    (hnd : (st.buffers.map Prod.fst).Nodup)
    (hc : filledCount (setSlot b index data) = total) :
    ((decodeBase64 (joinBuffer (setSlot b index data))).bind jsonParse = none →
      (onChunkBG st ty id index total data).2.2 = .threw ∧
      lookupA (onChunkBG st ty id index total data).1.buffers id =
        some (setSlot b index data) ∧
      (onChunkBG st ty id index total data).2.1 = [.ack id index]) ∧
    (∀ msg, (decodeBase64 (joinBuffer (setSlot b index data))).bind jsonParse = some msg →
      lookupA (onChunkBG st ty id index total data).1.buffers id = none ∧
      (onChunkBG st ty id index total data).2.2 = .ok) ∧
    (∀ id2, id2 ≠ id →
      lookupA (onChunkBG st ty id index total data).1.buffers id2 =
        lookupA st.buffers id2) := by
  rw [onChunkBG]
  simp only [hb, Option.isSome_some, if_true, Option.getD_some, if_pos hc]
  refine ⟨?_, ?_, ?_⟩
  · intro hdec
    rw [hdec]
    exact ⟨rfl, lookupA_setA_self st.buffers id (setSlot b index data), rfl⟩
  · intro msg hdec
    rw [hdec]
    cases ty
    · exact ⟨lookupA_eraseA_self _ id (nodup_setA_keys st.buffers id _ hnd), rfl⟩
    · exact ⟨lookupA_eraseA_self _ id (nodup_setA_keys st.buffers id _ hnd), rfl⟩
  · intro id2 hne
    cases hdec : (decodeBase64 (joinBuffer (setSlot b index data))).bind jsonParse with
    | none =>
      exact lookupA_setA_ne st.buffers id id2 _ hne
    | some msg =>
      cases ty
      · rw [show lookupA (eraseA (setA st.buffers id (setSlot b index data)) id) id2 =
            lookupA (setA st.buffers id (setSlot b index data)) id2 from
          lookupA_eraseA_ne _ id id2 hne]
        exact lookupA_setA_ne st.buffers id id2 _ hne
      · rw [show lookupA (eraseA (setA st.buffers id (setSlot b index data)) id) id2 =
            lookupA (setA st.buffers id (setSlot b index data)) id2 from
          lookupA_eraseA_ne _ id id2 hne]
        exact lookupA_setA_ne st.buffers id id2 _ hne

theorem C7_completion_witness :
    lookupA [(['a'], (⟨1, []⟩ : JsBuffer))] ['a'] = some ⟨1, []⟩ ∧
    ((([(['a'], (⟨1, []⟩ : JsBuffer))] : List (List Char × JsBuffer)).map Prod.fst).Nodup) ∧
    filledCount (setSlot ⟨1, []⟩ 0 ['!']) = 1 ∧
    (((decodeBase64 (joinBuffer (setSlot ⟨1, []⟩ 0 ['!']))).bind jsonParse = none →
      (onChunkBG ⟨initM, [(['a'], ⟨1, []⟩)]⟩ .req ['a'] 0 1 ['!']).2.2 = .threw ∧
      lookupA (onChunkBG ⟨initM, [(['a'], ⟨1, []⟩)]⟩ .req ['a'] 0 1 ['!']).1.buffers ['a'] =
        some (setSlot ⟨1, []⟩ 0 ['!']) ∧
      (onChunkBG ⟨initM, [(['a'], ⟨1, []⟩)]⟩ .req ['a'] 0 1 ['!']).2.1 = [.ack ['a'] 0]) ∧
    (∀ msg, (decodeBase64 (joinBuffer (setSlot ⟨1, []⟩ 0 ['!']))).bind jsonParse = some msg →
      lookupA (onChunkBG ⟨initM, [(['a'], ⟨1, []⟩)]⟩ .req ['a'] 0 1 ['!']).1.buffers ['a'] =
          none ∧
      (onChunkBG ⟨initM, [(['a'], ⟨1, []⟩)]⟩ .req ['a'] 0 1 ['!']).2.2 = .ok) ∧
    (∀ id2, id2 ≠ ['a'] →
      lookupA (onChunkBG ⟨initM, [(['a'], ⟨1, []⟩)]⟩ .req ['a'] 0 1 ['!']).1.buffers id2 =
        lookupA [(['a'], (⟨1, []⟩ : JsBuffer))] id2)) :=
  ⟨rfl, by decide, rfl,
    C7_completion ⟨initM, [(['a'], ⟨1, []⟩)]⟩ .req ['a'] 0 1 ['!'] ⟨1, []⟩ rfl (by decide) rfl⟩

theorem dispatchLoop_snd {Ctx : Type} (msg : Json) (ctx : Ctx) :
    ∀ (hs : List (Json → Ctx → Option (Option Json))) (responded : Bool),
      (dispatchLoop msg ctx hs responded).2 = hs.map (fun hd => hd msg ctx) := by
  intro hs
  induction hs with
  | nil => intro responded; rfl
  | cons hd hs ih =>
    intro responded
    rw [dispatchLoop]
    cases hr : hd msg ctx with
    | none => simp [hr, ih]
    | some v =>
      by_cases hresp : responded
      · simp [hr, hresp, ih]
      · simp [hr, hresp, ih]

theorem dispatchLoop_fst_true {Ctx : Type} (msg : Json) (ctx : Ctx) :
    ∀ hs : List (Json → Ctx → Option (Option Json)),
      (dispatchLoop msg ctx hs true).1 = [] := by
  intro hs
  induction hs with
  | nil => rfl
  | cons hd hs ih =>
    rw [dispatchLoop]
    cases hr : hd msg ctx with
    | none => simp [hr, ih]
    | some v => simp [hr, ih]

/-- **C8 counterexample.**  The claim that the first handler whose
settled result is present has that result transmitted as the response is
false of the code: `response !== undefined` is tested on the IMMEDIATE
(un-awaited) return value, and `sendResponse(await response)` then runs
with no further check.  With two handlers — an asynchronous one whose
promise settles to `undefined` (immediate result present, settled value
absent), then one returning `42` — the only present settled result among
the invocations is `42`, yet the transmitted response is the `RES` frame
carrying `undefined` from the first handler, which also latches
`responded` so that `42` is dropped. -/
theorem C8_counterexample :
    ((dispatchRequest
        [fun _ _ => some none, fun _ _ => some (some (Json.num 42))]
        Json.null ()).2.filterMap (fun r => r.bind id) = [Json.num 42]) ∧
    (dispatchRequest
        [fun _ _ => some none, fun _ _ => some (some (Json.num 42))]
        Json.null ()).1 = [none] ∧
    (dispatchRequest
        [fun _ _ => some none, fun _ _ => some (some (Json.num 42))]
        Json.null ()).1 ≠ [some (Json.num 42)] := by
  refine ⟨rfl, rfl, fun h => ?_⟩
  have h2 : ([none] : List (Option Json)) = [some (Json.num 42)] := h
  injection h2 with h3 h4
  exact Option.noConfusion h3

/-- **C8 (amended).**  On a fully reassembled request, the registered
handlers are invoked in registration order, each receiving the message
and the destination context (the second component lists every handler's
result in invocation order); the transmitted responses are exactly the
singleton of the settled value of the first handler whose IMMEDIATE
(un-awaited) result is present — even when that settled value is
`undefined` — and empty when no handler's immediate result is present;
hence at most one response is ever sent per request, and a later
handler's result, present or not, is silently dropped by the `responded`
latch. -/
theorem C8_dispatch {Ctx : Type} (handlers : List (Json → Ctx → Option (Option Json)))
    (msg : Json) (ctx : Ctx) :
    (dispatchRequest handlers msg ctx).2 = handlers.map (fun hd => hd msg ctx) ∧
    (dispatchRequest handlers msg ctx).1 =
      ((handlers.map (fun hd => hd msg ctx)).findSome? id).toList ∧
    (dispatchRequest handlers msg ctx).1.length ≤ 1 := by
  have hfst : (dispatchRequest handlers msg ctx).1 =
      ((handlers.map (fun hd => hd msg ctx)).findSome? id).toList := by
    rw [dispatchRequest]
    induction handlers with
    | nil => rfl
    | cons hd hs ih =>
      rw [dispatchLoop]
      cases hr : hd msg ctx with
      | none => simpa [hr, List.findSome?] using ih
      | some settled => simp [hr, List.findSome?, dispatchLoop_fst_true]
  refine ⟨dispatchLoop_snd msg ctx handlers false, hfst, ?_⟩
  rw [hfst]
  cases (handlers.map (fun hd => hd msg ctx)).findSome? id <;> simp

/-- **C9.**  In the handshake-bearing variant, a `MSG` frame whose secret
segment differs from the stored session secret — including before any
secret is established — leaves the whole protocol state unchanged,
emits nothing (no acknowledgment, no dispatch), and returns normally. -/
theorem C9_secret_filter (st : CState) (h : List Char) (sec : List Char) (ty : FrameType)
    (id seq data : List Char)
    (hp : parseMsgFrameC h = some (sec, ty, id, seq, data))
    (hm : st.secret ≠ some sec) :
    handleIncomingC st h = (st, [], .ok) := by
  obtain ⟨rest, hrest⟩ : ∃ rest, h = 'M' :: 'S' :: 'G' :: ':' :: rest := by
    unfold parseMsgFrameC at hp
    split at hp
    · rename_i r
      exact ⟨r, rfl⟩
    · cases hp
  subst hrest
  rw [handleIncomingC]
  rw [if_neg (by simp)]
  rw [if_pos (show List.take 4 ('M' :: 'S' :: 'G' :: ':' :: rest) = "MSG:".toList from rfl)]
  rw [hp]
  simp [hm]

theorem C9_secret_filter_witness :
    parseMsgFrameC ("MSG:s:REQ:a:0/1:x".toList) =
      some (['s'], .req, ['a'], ['0', '/', '1'], ['x']) ∧
    ((⟨none, initM, []⟩ : CState).secret ≠ some ['s']) ∧
    handleIncomingC ⟨none, initM, []⟩ ("MSG:s:REQ:a:0/1:x".toList) =
      (⟨none, initM, []⟩, [], .ok) :=
  ⟨rfl, by decide,
    C9_secret_filter ⟨none, initM, []⟩ ("MSG:s:REQ:a:0/1:x".toList) ['s'] .req ['a']
      ['0', '/', '1'] ['x'] rfl (by decide)⟩

end HashMessaging
